import Mathlib

/-!
gopool: a bounded pool of reusable resources.

A shallow embedding of `pool.go`.  The pool is a record of its fields; the
buffered channel `pool chan Conn` is a FIFO list with a capacity and a
closed bit.  The three external capabilities the pool calls (the `factory`
closure, `Conn.Alive` and `Conn.Close`) are functions of the history of
external calls made so far, so that a universally quantified environment
covers every behaviour of them, including behaviour that changes over time.
Every method threads the pool and that history (the trace) explicitly.

Modelling conventions:
* every method runs as one atomic step; `Lock`/`Unlock` therefore have no
  observable effect and are not represented;
* a call that would wait on the channel ends with outcome `blocked`, in the
  state reached at that moment; what a waiting `Acquire` does once its
  receive completes is `Pool.AcquireWake`;
* a send on a closed channel, a second `close` of the channel and a method
  call on the nil value received from a closed, empty channel end with
  outcome `panic`;
* `Conn` values are non-nil handles, and `factory` returns either an error or
  a non-nil handle;
* `make(chan Conn, n)` panics above the capacity the runtime can allocate,
  `Env.chanLimit`, which is a parameter of the environment;
* Go's `int` is the mathematical integers: the counter moves by one per
  resource, so wrap-around is out of reach of the properties studied here.
-/

namespace Gopool

/-- A resource handle: the identity of a non-nil `Conn` interface value. -/
abbrev Conn := Nat

/-- Go `error` values: the two package-level sentinels and any other error. -/
inductive Err where
  | ErrParameter
  | ErrState
  | other (code : Nat)
  deriving DecidableEq, Repr

/-- One call from the pool to an external capability. -/
inductive Event where
  | factory
  | alive (c : Conn)
  | close (c : Conn)
  deriving DecidableEq, Repr

/-- The history of external calls, oldest first. -/
abbrev Trace := List Event

/-- The behaviour of what the pool relies on.  The external capabilities are
functions of the history at the moment of the call: `factory()` yields an
error or a handle, `conn.Alive()` a boolean, `conn.Close()` an error or `none`
(Go `nil`).  `chanLimit` is the largest capacity for which
`make(chan Conn, n)` succeeds in the run at hand: above it the runtime panics
(`makechan: size out of range`) or gives up for lack of memory.  It depends on
the platform and on the machine (`2^44 - 6` for the sixteen-byte `Conn` on a
64-bit build, the value taken when none is given) and is at least the default
capacity 4 of `NewPool`. -/
structure Env where
  factory : Trace → Except Err Conn
  alive : Conn → Trace → Bool
  close : Conn → Trace → Option Err
  chanLimit : Nat := 17592186044410
  chanLimit_ge : 4 ≤ chanLimit := by decide

/-- How a call ends: it returns a value, it waits on the channel, or it
panics. -/
inductive Outcome (α : Type) where
  | ret (a : α)
  | blocked
  | panic
  deriving DecidableEq, Repr

/-- A buffered channel of `Conn`: `buf` holds the queued values, oldest
first; `cap` is the capacity given to `make`. -/
structure Chan where
  buf : List Conn
  cap : Nat
  closed : Bool
  deriving DecidableEq, Repr

/-- The `Pool` struct (the mutex and the `factory` closure apart: the closure
is the `factory` field of the environment). -/
structure Pool where
  pool : Chan
  minConn : Int
  maxConn : Int
  connCount : Int
  closed : Bool
  deriving DecidableEq, Repr

/-- The end of a method call: its outcome, the pool and the trace. -/
structure Step (α : Type) where
  out : Outcome α
  pool : Pool
  trace : Trace

/-- Channel send `ch <- c`. -/
def Chan.send (ch : Chan) (c : Conn) : Outcome Chan :=
  if ch.closed then .panic
  else if ch.buf.length < ch.cap then .ret { ch with buf := ch.buf ++ [c] }
  else .blocked

/-- The warm-up loop of `NewPool`: `n` iterations are left. -/
def warmUp (E : Env) : Nat → Pool → Trace → Step Unit
  | 0, p, tr => ⟨.ret (), p, tr⟩
  | n + 1, p, tr =>
    match E.factory tr with
    | .error _ => warmUp E n p (tr ++ [Event.factory])
    | .ok conn =>
      let p1 := { p with connCount := p.connCount + 1 }
      match p1.pool.send conn with
      | .ret ch => warmUp E n { p1 with pool := ch } (tr ++ [Event.factory])
      | .blocked => ⟨.blocked, p1, tr ++ [Event.factory]⟩
      | .panic => ⟨.panic, p1, tr ++ [Event.factory]⟩

/-- `make(chan Conn, n)`: a run-time panic for a negative size and for a size
above what the runtime can allocate, else an empty open channel of capacity
`n`. -/
def makeChan (E : Env) (n : Int) : Outcome Chan :=
  if n < 0 ∨ (E.chanLimit : Int) < n then .panic
  else .ret { buf := [], cap := n.toNat, closed := false }

/-- `NewPool(minConn, maxConn, factory)`: the returned pair `(*Pool, error)`
and the trace. -/
def NewPool (E : Env) (minConn maxConn : Int) (tr : Trace) :
    Outcome (Option Pool × Option Err) × Trace :=
  if maxConn < minConn then (.ret (none, some Err.ErrParameter), tr)
  else
    let maxConn := if maxConn ≤ 0 then 4 else maxConn
    match makeChan E maxConn with
    | .ret ch =>
      let p : Pool :=
        { pool := ch, minConn := 0, maxConn := maxConn, connCount := 0, closed := false }
      let r := warmUp E minConn.toNat p tr
      match r.out with
      | .ret _ => (.ret (some r.pool, none), r.trace)
      | .blocked => (.blocked, r.trace)
      | .panic => (.panic, r.trace)
    | .blocked => (.blocked, tr)
    | .panic => (.panic, tr)

/-- `p.Close(conn)`. -/
def Pool.Close (E : Env) (p : Pool) (tr : Trace) (conn : Conn) : Step (Option Err) :=
  match E.close conn tr with
  | some err => ⟨.ret (some err), p, tr ++ [Event.close conn]⟩
  | none => ⟨.ret none, { p with connCount := p.connCount - 1 }, tr ++ [Event.close conn]⟩

/-- The `TRY_RESOURCE` loop of `Acquire`: the non-blocking receive, the
liveness probe and the reap of a dead resource followed by the jump back.  The
list is the content of the channel at this point of the loop (`p.pool.buf`);
`none` is the `default` branch of the `select`. -/
def Pool.tryResource (E : Env) : List Conn → Pool → Trace → Step (Option Conn)
  | [], p, tr => ⟨.ret none, p, tr⟩
  | conn :: rest, p, tr =>
    let p1 := { p with pool := { p.pool with buf := rest } }
    if E.alive conn tr then ⟨.ret (some conn), p1, tr ++ [Event.alive conn]⟩
    else
      let r := p1.Close E (tr ++ [Event.alive conn]) conn
      Pool.tryResource E rest r.pool r.trace

/-- `p.Acquire()`: the returned pair `(Conn, error)`. -/
def Pool.Acquire (E : Env) (p : Pool) (tr : Trace) : Step (Option Conn × Option Err) :=
  if p.closed then ⟨.ret (none, some Err.ErrState), p, tr⟩
  else
    let r := Pool.tryResource E p.pool.buf p tr
    match r.out with
    | .ret (some conn) => ⟨.ret (some conn, none), r.pool, r.trace⟩
    | .ret none =>
      if r.pool.pool.closed then ⟨.panic, r.pool, r.trace⟩
      else if r.pool.connCount ≥ r.pool.maxConn then ⟨.blocked, r.pool, r.trace⟩
      else
        match E.factory r.trace with
        | .error err => ⟨.ret (none, some err), r.pool, r.trace ++ [Event.factory]⟩
        | .ok conn =>
          ⟨.ret (some conn, none), { r.pool with connCount := r.pool.connCount + 1 },
            r.trace ++ [Event.factory]⟩
    | .blocked => ⟨.blocked, r.pool, r.trace⟩
    | .panic => ⟨.panic, r.pool, r.trace⟩

/-- `p.Release(conn)`. -/
def Pool.Release (p : Pool) (tr : Trace) (conn : Conn) : Step (Option Err) :=
  if p.closed then ⟨.ret (some Err.ErrState), p, tr⟩
  else
    match p.pool.send conn with
    | .ret ch => ⟨.ret none, { p with pool := ch }, tr⟩
    | .blocked => ⟨.blocked, p, tr⟩
    | .panic => ⟨.panic, p, tr⟩

/-- The `for conn := range p.pool` loop of `Shutdown` on the closed channel:
the list is the content of the channel (`p.pool.buf`).  The error of
`conn.Close()` is discarded. -/
def Pool.drain : List Conn → Pool → Trace → Pool × Trace
  | [], p, tr => (p, tr)
  | conn :: rest, p, tr =>
    Pool.drain rest
      { p with pool := { p.pool with buf := rest }, connCount := p.connCount - 1 }
      (tr ++ [Event.close conn])

/-- `p.Shutdown()`. -/
def Pool.Shutdown (p : Pool) (tr : Trace) : Step (Option Err) :=
  if p.closed then ⟨.ret none, p, tr⟩
  else if p.pool.closed then ⟨.panic, p, tr⟩
  else
    let p1 := { p with pool := { p.pool with closed := true } }
    let r := Pool.drain p1.pool.buf p1 tr
    ⟨.ret none, { r.1 with closed := true }, r.2⟩

/-- A call of one of the four methods of a pool. -/
inductive Op where
  | acquire
  | release (c : Conn)
  | close (c : Conn)
  | shutdown
  deriving DecidableEq, Repr

/-- A pool in use: the pool, the trace, and the resources its callers hold (a
resource is held from the `Acquire` that returned it until a `Release` or a
`Close` of it returns without error). -/
structure Sys where
  pool : Pool
  trace : Trace
  held : List Conn

/-- One method call, taken as an atomic step. -/
def Sys.step (E : Env) (s : Sys) : Op → Sys
  | .acquire =>
    let r := s.pool.Acquire E s.trace
    match r.out with
    | .ret (some c, _) => ⟨r.pool, r.trace, c :: s.held⟩
    | _ => ⟨r.pool, r.trace, s.held⟩
  | .release c =>
    let r := s.pool.Release s.trace c
    match r.out with
    | .ret none => ⟨r.pool, r.trace, s.held.erase c⟩
    | _ => ⟨r.pool, r.trace, s.held⟩
  | .close c =>
    let r := s.pool.Close E s.trace c
    match r.out with
    | .ret none => ⟨r.pool, r.trace, s.held.erase c⟩
    | _ => ⟨r.pool, r.trace, s.held⟩
  | .shutdown =>
    let r := s.pool.Shutdown s.trace
    ⟨r.pool, r.trace, s.held⟩

/-- A finite sequence of method calls, one after the other. -/
def Sys.run (E : Env) (s : Sys) (ops : List Op) : Sys :=
  ops.foldl (Sys.step E) s

/-- The usage discipline: `Release` and `Close` are only passed a resource
the callers hold at that moment. -/
def Sys.Disciplined (E : Env) : Sys → List Op → Prop
  | _, [] => True
  | s, op :: ops =>
    (match op with
      | .release c => c ∈ s.held
      | .close c => c ∈ s.held
      | _ => True) ∧ Sys.Disciplined E (s.step E op) ops

/-- The capacity a pool built with `maxConn` works with. -/
def effectiveMax (maxConn : Int) : Int :=
  if maxConn ≤ 0 then 4 else maxConn

/-- Number of `factory` calls in a trace. -/
def factoryCalls (tr : Trace) : Nat :=
  tr.count Event.factory

/-- Number of `Close()` calls on `c` in a trace. -/
def closeCalls (c : Conn) (tr : Trace) : Nat :=
  tr.count (Event.close c)

/-- A factory that hands out fresh handles `100, 101, ...` and never fails,
with resources that are always alive and always close cleanly. -/
def healthyEnv : Env :=
  { factory := fun tr => .ok (100 + factoryCalls tr),
    alive := fun _ _ => true,
    close := fun _ _ => none }

/-- Invariants of the representation that hold of every pool `NewPool` builds
and that every method keeps: the capacity of the channel is the positive
`maxConn`, the channel never holds more than its capacity, and the channel is
closed exactly when the `closed` flag is set. -/
def Pool.WF (p : Pool) : Prop :=
  0 < p.maxConn ∧ p.pool.cap = p.maxConn.toNat ∧ p.pool.buf.length ≤ p.pool.cap ∧
    p.pool.closed = p.closed

/-- The probes of the resources `pre`, pulled one after the other by the
`TRY_RESOURCE` loop from history `tr` on, all answer `false`. -/
def probedDead (E : Env) : List Conn → Trace → Bool
  | [], _ => true
  | d :: ds, tr =>
    !E.alive d tr && probedDead E ds (tr ++ [Event.alive d, Event.close d])

/-- The external calls of the loop while it reaps the dead resources `pre`:
for each one its probe, then its `Close()`. -/
def reapTrace : List Conn → Trace
  | [] => []
  | d :: ds => Event.alive d :: Event.close d :: reapTrace ds

/-- How many of the dead resources `pre`, reaped one after the other from
history `tr` on, have a `Close()` that returns no error. -/
def closedCleanly (E : Env) : List Conn → Trace → Nat
  | [], _ => 0
  | d :: ds, tr =>
    (if E.close d (tr ++ [Event.alive d]) = none then 1 else 0)
      + closedCleanly E ds (tr ++ [Event.alive d, Event.close d])

/-- A factory that hands out `1, 2, ...`; resource `1` is dead and its
`Close()` fails, every other resource is alive and closes cleanly. -/
def staleEnv : Env :=
  { factory := fun tr => .ok (factoryCalls tr + 1),
    alive := fun c _ => decide (c ≠ 1),
    close := fun c _ => if c = 1 then some (Err.other 9) else none }

/-- A factory whose third invocation fails with `Err.other 7` and that
otherwise hands out fresh handles; resources are alive and close cleanly. -/
def thirdFailsEnv : Env :=
  { factory := fun tr =>
      if factoryCalls tr = 2 then .error (Err.other 7) else .ok (100 + factoryCalls tr),
    alive := fun _ _ => true,
    close := fun _ _ => none }

/-- The pool in use after `i` consecutive `Acquire` calls and nothing else. -/
def afterAcquires (E : Env) (p : Pool) (tr : Trace) (i : Nat) : Sys :=
  Sys.run E ⟨p, tr, []⟩ (List.replicate i Op.acquire)

/-- The resources the warm-up loop of `NewPool` builds in `n` iterations from
history `tr` on, in construction order: the results of the `factory` calls
that succeed. -/
def warmed (E : Env) : Nat → Trace → List Conn
  | 0, _ => []
  | n + 1, tr =>
    match E.factory tr with
    | .ok c => c :: warmed E n (tr ++ [Event.factory])
    | .error _ => warmed E n (tr ++ [Event.factory])

/-- A factory that fails on its first invocation with `Err.other 5` and then
hands out fresh handles; resources are alive and close cleanly. -/
def firstFailsEnv : Env :=
  { factory := fun tr =>
      if factoryCalls tr = 0 then .error (Err.other 5) else .ok (100 + factoryCalls tr),
    alive := fun _ _ => true,
    close := fun _ _ => none }

/-- The ways an `Acquire` on an open pool can end. -/
inductive Ending where
  | servedIdle
  | built
  | factoryError
  | blocked
  deriving DecidableEq, Repr

/-- The `Acquire` on pool `p` that ended as `r` ended in the given way: it
returned an idle resource of `p` right after probing it alive; it returned the
resource its `factory` call built; it returned the error of its `factory`
call; or it is waiting on the empty idle buffer with the pool at capacity. -/
def endsAs (E : Env) (p : Pool) (r : Step (Option Conn × Option Err)) : Ending → Prop
  | .servedIdle => ∃ c t, c ∈ p.pool.buf ∧ r.out = .ret (some c, none) ∧
      r.trace = t ++ [Event.alive c] ∧ E.alive c t = true
  | .built => ∃ c t, r.out = .ret (some c, none) ∧
      r.trace = t ++ [Event.factory] ∧ E.factory t = .ok c
  | .factoryError => ∃ e t, r.out = .ret (none, some e) ∧
      r.trace = t ++ [Event.factory] ∧ E.factory t = .error e
  | .blocked => r.out = .blocked ∧ r.pool.pool.buf = [] ∧ r.pool.maxConn ≤ r.pool.connCount

/-- Number of `Alive()` probes in a trace. -/
def aliveProbes (tr : Trace) : Nat :=
  tr.countP fun e => match e with
    | .alive _ => true
    | _ => false

/-- Every resource is dead and every `Close()` fails with `Err.other 9`; the
factory hands out `1, 2, ...`. -/
def deadEnv : Env :=
  { factory := fun tr => .ok (factoryCalls tr + 1),
    alive := fun _ _ => false,
    close := fun _ _ => some (Err.other 9) }

/-- The body of `Acquire` from the label `TRY_RESOURCE` on: what the jump
`goto TRY_RESOURCE` runs, without the test of `closed` at the head of
`Acquire`. -/
def Pool.fromTryResource (E : Env) (p : Pool) (tr : Trace) :
    Step (Option Conn × Option Err) :=
  let r := Pool.tryResource E p.pool.buf p tr
  match r.out with
  | .ret (some conn) => ⟨.ret (some conn, none), r.pool, r.trace⟩
  | .ret none =>
    if r.pool.pool.closed then ⟨.panic, r.pool, r.trace⟩
    else if r.pool.connCount ≥ r.pool.maxConn then ⟨.blocked, r.pool, r.trace⟩
    else
      match E.factory r.trace with
      | .error err => ⟨.ret (none, some err), r.pool, r.trace ++ [Event.factory]⟩
      | .ok conn =>
        ⟨.ret (some conn, none), { r.pool with connCount := r.pool.connCount + 1 },
          r.trace ++ [Event.factory]⟩
  | .blocked => ⟨.blocked, r.pool, r.trace⟩
  | .panic => ⟨.panic, r.pool, r.trace⟩

/-- The rest of an `Acquire` that waits at the blocking receive
`conn := <-p.pool`, at the moment the receive can complete: on a queued
resource, the probe, and for a dead one the reap and the jump back to
`TRY_RESOURCE`; on a closed, empty channel the receive yields nil and
`conn.Alive()` panics; on an open, empty channel the call goes on waiting. -/
def Pool.AcquireWake (E : Env) (p : Pool) (tr : Trace) : Step (Option Conn × Option Err) :=
  match p.pool.buf with
  | [] => if p.pool.closed then ⟨.panic, p, tr⟩ else ⟨.blocked, p, tr⟩
  | conn :: rest =>
    let p1 := { p with pool := { p.pool with buf := rest } }
    if E.alive conn tr then ⟨.ret (some conn, none), p1, tr ++ [Event.alive conn]⟩
    else
      let r := p1.Close E (tr ++ [Event.alive conn]) conn
      Pool.fromTryResource E r.pool r.trace

/-- Resources `1` and `2` are dead, every other resource is alive; the
`Close()` of resource `1` fails with `Err.other 9`, every other `Close()`
succeeds; the factory hands out `10, 11, ...`. -/
def mixedEnv : Env :=
  { factory := fun tr => .ok (10 + factoryCalls tr),
    alive := fun c _ => decide (3 ≤ c),
    close := fun c _ => if c = 1 then some (Err.other 9) else none }

/-! ## The loops -/

theorem Close_pool_chan (E : Env) (p : Pool) (tr : Trace) (c : Conn) :
    (p.Close E tr c).pool.pool = p.pool ∧ (p.Close E tr c).pool.maxConn = p.maxConn ∧
      (p.Close E tr c).pool.closed = p.closed ∧ (p.Close E tr c).pool.minConn = p.minConn := by
  unfold Pool.Close
  cases E.close c tr <;> simp

theorem Close_connCount_le (E : Env) (p : Pool) (tr : Trace) (c : Conn) :
    (p.Close E tr c).pool.connCount ≤ p.connCount ∧
      p.connCount - 1 ≤ (p.Close E tr c).pool.connCount := by
  unfold Pool.Close
  cases E.close c tr <;> simp

theorem Close_trace (E : Env) (p : Pool) (tr : Trace) (c : Conn) :
    (p.Close E tr c).trace = tr ++ [Event.close c] := by
  unfold Pool.Close
  cases E.close c tr <;> simp

theorem tryResource_frame (E : Env) (buf : List Conn) :
    ∀ (p : Pool) (tr : Trace),
      (Pool.tryResource E buf p tr).pool.maxConn = p.maxConn ∧
      (Pool.tryResource E buf p tr).pool.closed = p.closed ∧
      (Pool.tryResource E buf p tr).pool.minConn = p.minConn ∧
      (Pool.tryResource E buf p tr).pool.pool.cap = p.pool.cap ∧
      (Pool.tryResource E buf p tr).pool.pool.closed = p.pool.closed ∧
      (Pool.tryResource E buf p tr).pool.connCount ≤ p.connCount := by
  induction buf with
  | nil => intro p tr; simp [Pool.tryResource]
  | cons c rest ih =>
    intro p tr
    simp only [Pool.tryResource]
    split
    · simp
    · have h := ih (Pool.Close E { p with pool := { p.pool with buf := rest } }
        (tr ++ [Event.alive c]) c).pool
        (Pool.Close E { p with pool := { p.pool with buf := rest } }
        (tr ++ [Event.alive c]) c).trace
      have hc := Close_pool_chan E { p with pool := { p.pool with buf := rest } }
        (tr ++ [Event.alive c]) c
      have hn := Close_connCount_le E { p with pool := { p.pool with buf := rest } }
        (tr ++ [Event.alive c]) c
      obtain ⟨h1, h2, h3, h4, h5, h6⟩ := h
      obtain ⟨c1, c2, c3, c4⟩ := hc
      refine ⟨by rw [h1, c2], by rw [h2, c3], by rw [h3, c4], by rw [h4, c1], by rw [h5, c1], ?_⟩
      exact le_trans h6 hn.1

/-- The loop ends in one of two ways: it hands out a resource, or it leaves
the channel empty. -/
theorem tryResource_out (E : Env) (buf : List Conn) :
    ∀ (p : Pool) (tr : Trace), p.pool.buf = buf →
      ((Pool.tryResource E buf p tr).out = .ret none ∧
          (Pool.tryResource E buf p tr).pool.pool.buf = [] ∧
          p.connCount - buf.length ≤ (Pool.tryResource E buf p tr).pool.connCount) ∨
      (∃ c, (Pool.tryResource E buf p tr).out = .ret (some c) ∧
          (Pool.tryResource E buf p tr).pool.pool.buf.length + 1 ≤ buf.length ∧
          p.connCount - buf.length ≤ (Pool.tryResource E buf p tr).pool.connCount
            - ((Pool.tryResource E buf p tr).pool.pool.buf.length + 1 : Nat)) := by
  induction buf with
  | nil => intro p tr hb; left; simp [Pool.tryResource, hb]
  | cons c rest ih =>
    intro p tr _
    simp only [Pool.tryResource]
    split
    · right; exact ⟨c, rfl, by simp, by simp⟩
    · have hc := Close_pool_chan E { p with pool := { p.pool with buf := rest } }
        (tr ++ [Event.alive c]) c
      have hn := Close_connCount_le E { p with pool := { p.pool with buf := rest } }
        (tr ++ [Event.alive c]) c
      have h := ih (Pool.Close E { p with pool := { p.pool with buf := rest } }
        (tr ++ [Event.alive c]) c).pool
        (Pool.Close E { p with pool := { p.pool with buf := rest } }
        (tr ++ [Event.alive c]) c).trace (by rw [hc.1])
      simp only [List.length_cons, Nat.cast_add, Nat.cast_one] at *
      rcases h with ⟨h1, h2, h3⟩ | ⟨d, h1, h2, h3⟩
      · left; exact ⟨h1, h2, by omega⟩
      · right; exact ⟨d, h1, by omega, by omega⟩

theorem drain_spec (buf : List Conn) :
    ∀ (p : Pool) (tr : Trace),
      (Pool.drain buf p tr).1.maxConn = p.maxConn ∧
      (Pool.drain buf p tr).1.closed = p.closed ∧
      (Pool.drain buf p tr).1.minConn = p.minConn ∧
      (Pool.drain buf p tr).1.pool.cap = p.pool.cap ∧
      (Pool.drain buf p tr).1.pool.closed = p.pool.closed ∧
      (Pool.drain buf p tr).1.connCount = p.connCount - buf.length ∧
      (p.pool.buf = buf → (Pool.drain buf p tr).1.pool.buf = []) ∧
      (Pool.drain buf p tr).2 = tr ++ buf.map Event.close := by
  induction buf with
  | nil => intro p tr; simp [Pool.drain]
  | cons c rest ih =>
    intro p tr
    simp only [Pool.drain]
    obtain ⟨h1, h2, h3, h4, h5, h6, h7, h8⟩ :=
      ih { p with pool := { p.pool with buf := rest }, connCount := p.connCount - 1 }
        (tr ++ [Event.close c])
    refine ⟨h1, h2, h3, h4, h5, ?_, fun _ => h7 rfl, ?_⟩
    · rw [h6]; simp only [List.length_cons, Nat.cast_add, Nat.cast_one]; omega
    · rw [h8]; simp

theorem warmUp_spec (E : Env) (n : Nat) :
    ∀ (p : Pool) (tr : Trace), p.pool.closed = false → p.pool.buf.length + n ≤ p.pool.cap →
      (warmUp E n p tr).out = .ret () ∧
      (warmUp E n p tr).pool.maxConn = p.maxConn ∧
      (warmUp E n p tr).pool.closed = p.closed ∧
      (warmUp E n p tr).pool.minConn = p.minConn ∧
      (warmUp E n p tr).pool.pool.cap = p.pool.cap ∧
      (warmUp E n p tr).pool.pool.closed = false ∧
      (warmUp E n p tr).pool.pool.buf.length ≤ p.pool.buf.length + n ∧
      (warmUp E n p tr).pool.connCount - (warmUp E n p tr).pool.pool.buf.length
        = p.connCount - p.pool.buf.length := by
  induction n with
  | zero => intro p tr hc _; simp [warmUp, hc]
  | succ n ih =>
    intro p tr hc hcap
    simp only [warmUp]
    cases hf : E.factory tr with
    | error e =>
      simp only
      obtain ⟨h1, h2, h3, h4, h5, h6, h7, h8⟩ := ih p (tr ++ [Event.factory]) hc (by omega)
      exact ⟨h1, h2, h3, h4, h5, h6, by omega, h8⟩
    | ok c =>
      have hlt : p.pool.buf.length < p.pool.cap := by omega
      simp only [Chan.send, hc, hlt, if_true, Bool.false_eq_true, if_false]
      obtain ⟨h1, h2, h3, h4, h5, h6, h7, h8⟩ :=
        ih { pool := { buf := p.pool.buf ++ [c], cap := p.pool.cap, closed := false },
             minConn := p.minConn, maxConn := p.maxConn, connCount := p.connCount + 1,
             closed := p.closed }
          (tr ++ [Event.factory]) rfl (by simp only [List.length_append, List.length_singleton]; omega)
      refine ⟨h1, h2, h3, h4, h5, h6, ?_, ?_⟩
      · simp only [List.length_append, List.length_singleton] at h7; omega
      · rw [h8]; simp only [List.length_append, List.length_singleton, Nat.cast_add, Nat.cast_one]
        omega

/-- The warm-up loop on an open channel with room for `n` more resources:
it makes `n` factory calls and queues the resources built. -/
theorem warmUp_warmed (E : Env) (n : Nat) :
    ∀ (p : Pool) (tr : Trace), p.pool.closed = false → p.pool.buf.length + n ≤ p.pool.cap →
      warmUp E n p tr =
        ⟨.ret (),
          { p with pool := { p.pool with buf := p.pool.buf ++ warmed E n tr },
                   connCount := p.connCount + (warmed E n tr).length },
          tr ++ List.replicate n Event.factory⟩ := by
  induction n with
  | zero =>
    intro p tr _ _
    simp [warmUp, warmed]
  | succ n ih =>
    intro p tr hc hcap
    have hlt : p.pool.buf.length < p.pool.cap := by omega
    cases hf : E.factory tr with
    | error e =>
      simp only [warmUp, warmed, hf]
      rw [ih p (tr ++ [Event.factory]) hc (by omega)]
      simp [List.replicate_succ]
    | ok c =>
      simp only [warmUp, warmed, hf, Chan.send, hc, hlt, if_true, Bool.false_eq_true, if_false]
      rw [ih _ (tr ++ [Event.factory]) rfl
        (by simp only [List.length_append, List.length_singleton]; omega)]
      simp only [List.append_assoc, List.singleton_append, List.length_cons, Nat.cast_add,
        Nat.cast_one, List.replicate_succ, Step.mk.injEq, Pool.mk.injEq, Chan.mk.injEq,
        true_and, and_true]
      omega

theorem warmed_length_le (E : Env) (n : Nat) : ∀ tr : Trace, (warmed E n tr).length ≤ n := by
  induction n with
  | zero => intro tr; simp [warmed]
  | succ n ih =>
    intro tr
    have := ih (tr ++ [Event.factory])
    simp only [warmed]
    split
    · simp only [List.length_cons]; omega
    · omega

theorem warmed_all_ok (E : Env) (hf : ∀ t, ∃ c, E.factory t = .ok c) (n : Nat) :
    ∀ tr : Trace, (warmed E n tr).length = n := by
  induction n with
  | zero => intro tr; simp [warmed]
  | succ n ih =>
    intro tr
    obtain ⟨c, hc⟩ := hf tr
    simp [warmed, hc, ih]

theorem effectiveMax_pos (maxConn : Int) : 0 < effectiveMax maxConn := by
  unfold effectiveMax
  split <;> omega

/-- The three ways `NewPool` ends: the parameter error, the panic of `make`
on a capacity the runtime cannot allocate, or the warmed pool. -/
theorem NewPool_cases (E : Env) (minConn maxConn : Int) (tr : Trace) :
    (maxConn < minConn ∧
      NewPool E minConn maxConn tr = (.ret (none, some Err.ErrParameter), tr)) ∨
    (¬ maxConn < minConn ∧ (E.chanLimit : Int) < effectiveMax maxConn ∧
      NewPool E minConn maxConn tr = (.panic, tr)) ∨
    (¬ maxConn < minConn ∧ effectiveMax maxConn ≤ (E.chanLimit : Int) ∧
      NewPool E minConn maxConn tr =
        (.ret (some
          { pool := { buf := warmed E minConn.toNat tr, cap := (effectiveMax maxConn).toNat,
                      closed := false },
            minConn := 0, maxConn := effectiveMax maxConn,
            connCount := (warmed E minConn.toNat tr).length, closed := false }, none),
          tr ++ List.replicate minConn.toNat Event.factory)) := by
  have hpos := effectiveMax_pos maxConn
  have hem : (if maxConn ≤ 0 then (4 : Int) else maxConn) = effectiveMax maxConn := rfl
  by_cases hlt : maxConn < minConn
  · left
    exact ⟨hlt, by simp [NewPool, hlt]⟩
  · right
    by_cases hbig : (E.chanLimit : Int) < effectiveMax maxConn
    · left
      refine ⟨hlt, hbig, ?_⟩
      simp only [NewPool, hlt, if_false, hem, makeChan, hbig, or_true, if_true]
    · right
      refine ⟨hlt, by omega, ?_⟩
      have hno : ¬ (effectiveMax maxConn < 0 ∨ (E.chanLimit : Int) < effectiveMax maxConn) := by
        omega
      have hroom : minConn.toNat ≤ (effectiveMax maxConn).toNat := by
        unfold effectiveMax at *
        split <;> omega
      have hw := warmUp_warmed E minConn.toNat
        { pool := { buf := [], cap := (effectiveMax maxConn).toNat, closed := false },
          minConn := 0, maxConn := effectiveMax maxConn, connCount := 0, closed := false }
        tr rfl (by simpa using hroom)
      simp only [NewPool, hlt, if_false, hem, makeChan, hno]
      rw [hw]
      simp

/-- What a successful `NewPool` returns. -/
theorem NewPool_spec (E : Env) (minConn maxConn : Int) (tr tr1 : Trace) (p : Pool)
    (h : NewPool E minConn maxConn tr = (.ret (some p, none), tr1)) :
    p.WF ∧ p.maxConn = effectiveMax maxConn ∧ p.closed = false ∧
      p.connCount = p.pool.buf.length ∧ p.pool.buf.length ≤ minConn.toNat := by
  have hpos := effectiveMax_pos maxConn
  have hlen := warmed_length_le E minConn.toNat tr
  rcases NewPool_cases E minConn maxConn tr with ⟨_, h1⟩ | ⟨_, _, h1⟩ | ⟨hlt, _, h1⟩
  · rw [h1] at h; simp at h
  · rw [h1] at h; simp at h
  · rw [h1] at h
    simp only [Prod.mk.injEq, Outcome.ret.injEq, Option.some.injEq, and_true] at h
    obtain ⟨hp, _⟩ := h
    subst hp
    have hroom : minConn.toNat ≤ (effectiveMax maxConn).toNat := by
      unfold effectiveMax at *
      split <;> omega
    exact ⟨⟨hpos, rfl, le_trans hlen hroom, rfl⟩, rfl, rfl, rfl, hlen⟩

/-! ## What every call keeps -/

theorem Acquire_frame (E : Env) (p : Pool) (tr : Trace) :
    (p.Acquire E tr).pool.maxConn = p.maxConn ∧
    (p.Acquire E tr).pool.closed = p.closed ∧
    (p.Acquire E tr).pool.minConn = p.minConn ∧
    (p.Acquire E tr).pool.pool.cap = p.pool.cap ∧
    (p.Acquire E tr).pool.pool.closed = p.pool.closed ∧
    (p.Acquire E tr).pool.pool.buf.length ≤ p.pool.buf.length ∧
    (p.connCount ≤ p.maxConn → (p.Acquire E tr).pool.connCount ≤ p.maxConn) := by
  unfold Pool.Acquire
  split
  · simp
  · obtain ⟨f1, f2, f3, f4, f5, f6⟩ := tryResource_frame E p.pool.buf p tr
    rcases tryResource_out E p.pool.buf p tr rfl with ⟨o1, o2, _⟩ | ⟨c, o1, o2, _⟩
    · simp only [o1]
      split
      · exact ⟨f1, f2, f3, f4, f5, by rw [o2]; simp, fun h => le_trans f6 h⟩
      · split
        · exact ⟨f1, f2, f3, f4, f5, by rw [o2]; simp, fun h => le_trans f6 h⟩
        · rename_i hlt
          cases E.factory (Pool.tryResource E p.pool.buf p tr).trace with
          | error e => exact ⟨f1, f2, f3, f4, f5, by rw [o2]; simp, fun h => le_trans f6 h⟩
          | ok d =>
            refine ⟨f1, f2, f3, f4, f5, by simp only; rw [o2]; simp, fun _ => ?_⟩
            simp only
            rw [← f1]
            omega
    · simp only [o1]
      exact ⟨f1, f2, f3, f4, f5, by omega, fun h => le_trans f6 h⟩

/-- The accounting of `Acquire`: a resource handed out leaves the channel or
raises the counter by one. -/
theorem Acquire_account (E : Env) (p : Pool) (tr : Trace) :
    (∃ c e, (p.Acquire E tr).out = .ret (some c, e) ∧
        p.connCount - p.pool.buf.length + 1 ≤
          (p.Acquire E tr).pool.connCount - (p.Acquire E tr).pool.pool.buf.length) ∨
    ((∀ c e, (p.Acquire E tr).out ≠ .ret (some c, e)) ∧
        p.connCount - p.pool.buf.length ≤
          (p.Acquire E tr).pool.connCount - (p.Acquire E tr).pool.pool.buf.length) := by
  unfold Pool.Acquire
  split
  · right; simp
  · rcases tryResource_out E p.pool.buf p tr rfl with ⟨o1, o2, o3⟩ | ⟨c, o1, o2, o3⟩
    · simp only [o1]
      split
      · right; refine ⟨by simp, ?_⟩; simp only [o2, List.length_nil, Nat.cast_zero]; omega
      · split
        · right; refine ⟨by simp, ?_⟩; simp only [o2, List.length_nil, Nat.cast_zero]; omega
        · cases E.factory (Pool.tryResource E p.pool.buf p tr).trace with
          | error e =>
            right; refine ⟨by simp, ?_⟩; simp only [o2, List.length_nil, Nat.cast_zero]; omega
          | ok d =>
            left; refine ⟨d, none, rfl, ?_⟩
            simp only [o2, List.length_nil, Nat.cast_zero]; omega
    · simp only [o1]
      left; refine ⟨c, none, rfl, ?_⟩
      simp only [Nat.cast_add, Nat.cast_one] at o3
      omega

theorem Release_frame (p : Pool) (tr : Trace) (c : Conn) :
    (p.Release tr c).pool.maxConn = p.maxConn ∧
    (p.Release tr c).pool.closed = p.closed ∧
    (p.Release tr c).pool.minConn = p.minConn ∧
    (p.Release tr c).pool.pool.cap = p.pool.cap ∧
    (p.Release tr c).pool.pool.closed = p.pool.closed ∧
    (p.Release tr c).pool.connCount = p.connCount ∧
    (p.Release tr c).pool.pool.buf.length ≤ max p.pool.cap p.pool.buf.length ∧
    (p.Release tr c).trace = tr ∧
    (((p.Release tr c).out = .ret none ∧ (p.Release tr c).pool.pool.buf = p.pool.buf ++ [c]) ∨
     ((p.Release tr c).out ≠ .ret none ∧ (p.Release tr c).pool = p)) := by
  unfold Pool.Release Chan.send
  by_cases h1 : p.closed = true
  · simp [h1]
  · by_cases h2 : p.pool.closed = true
    · simp [h1, h2]
    · by_cases h3 : p.pool.buf.length < p.pool.cap
      · simp [h1, h2, h3]
        omega
      · simp [h1, h2, h3]

theorem Shutdown_frame (p : Pool) (tr : Trace) :
    (p.Shutdown tr).pool.maxConn = p.maxConn ∧
    (p.Shutdown tr).pool.minConn = p.minConn ∧
    (p.Shutdown tr).pool.pool.cap = p.pool.cap ∧
    (p.Shutdown tr).pool.connCount ≤ p.connCount ∧
    (p.Shutdown tr).pool.pool.buf.length ≤ p.pool.buf.length ∧
    p.connCount - p.pool.buf.length ≤
      (p.Shutdown tr).pool.connCount - (p.Shutdown tr).pool.pool.buf.length ∧
    (p.closed = true → (p.Shutdown tr).pool = p) ∧
    (p.pool.closed = p.closed → (p.Shutdown tr).pool.closed = true ∧
      (p.Shutdown tr).pool.pool.closed = true) := by
  unfold Pool.Shutdown
  split
  · rename_i h; simp [h]
  · split
    · rename_i h1 h2; simp [h1, h2]
    · obtain ⟨d1, d2, d3, d4, d5, d6, d7, d8⟩ :=
        drain_spec p.pool.buf { p with pool := { p.pool with closed := true } } tr
      have d9 := d7 rfl
      refine ⟨d1, d3, d4, ?_, ?_, ?_, by simp_all, ?_⟩
      · show (Pool.drain _ _ _).1.connCount ≤ _
        rw [d6]; show p.connCount - _ ≤ _; omega
      · show (Pool.drain _ _ _).1.pool.buf.length ≤ _
        rw [d9]; simp
      · show _ ≤ (Pool.drain _ _ _).1.connCount - ((Pool.drain _ _ _).1.pool.buf.length : Int)
        rw [d6, d9]; show _ ≤ p.connCount - _ - _; simp
      · intro _; exact ⟨rfl, d5⟩

/-! ## Steps and runs -/

theorem step_acquire (E : Env) (s : Sys) :
    (s.step E .acquire).pool = (s.pool.Acquire E s.trace).pool ∧
    (s.step E .acquire).trace = (s.pool.Acquire E s.trace).trace := by
  simp only [Sys.step]
  split <;> exact ⟨rfl, rfl⟩

theorem step_release (E : Env) (s : Sys) (c : Conn) :
    (s.step E (.release c)).pool = (s.pool.Release s.trace c).pool ∧
    (s.step E (.release c)).trace = (s.pool.Release s.trace c).trace := by
  simp only [Sys.step]
  split <;> exact ⟨rfl, rfl⟩

theorem step_close (E : Env) (s : Sys) (c : Conn) :
    (s.step E (.close c)).pool = (s.pool.Close E s.trace c).pool ∧
    (s.step E (.close c)).trace = (s.pool.Close E s.trace c).trace := by
  simp only [Sys.step]
  split <;> exact ⟨rfl, rfl⟩

theorem run_cons (E : Env) (s : Sys) (op : Op) (ops : List Op) :
    s.run E (op :: ops) = (s.step E op).run E ops := rfl

/-- No step raises the counter above `maxConn`, and no step changes
`maxConn`. -/
theorem step_ceiling (E : Env) (s : Sys) (op : Op) (M : Int)
    (h : s.pool.maxConn = M ∧ s.pool.connCount ≤ M) :
    (s.step E op).pool.maxConn = M ∧ (s.step E op).pool.connCount ≤ M := by
  obtain ⟨hM, hc⟩ := h
  cases op with
  | acquire =>
    rw [(step_acquire E s).1]
    obtain ⟨f1, _, _, _, _, _, f7⟩ := Acquire_frame E s.pool s.trace
    exact ⟨by rw [f1, hM], by rw [← hM]; exact f7 (by rw [hM]; exact hc)⟩
  | release c =>
    rw [(step_release E s c).1]
    obtain ⟨f1, _, _, _, _, f6, _⟩ := Release_frame s.pool s.trace c
    exact ⟨by rw [f1, hM], by rw [f6]; exact hc⟩
  | close c =>
    rw [(step_close E s c).1]
    exact ⟨by rw [(Close_pool_chan E s.pool s.trace c).2.1, hM],
      le_trans (Close_connCount_le E s.pool s.trace c).1 hc⟩
  | shutdown =>
    obtain ⟨f1, _, _, f4, _⟩ := Shutdown_frame s.pool s.trace
    exact ⟨by show (s.pool.Shutdown s.trace).pool.maxConn = M; rw [f1, hM],
      le_trans f4 hc⟩

theorem run_ceiling (E : Env) (ops : List Op) :
    ∀ (s : Sys) (M : Int), s.pool.maxConn = M ∧ s.pool.connCount ≤ M →
      (s.run E ops).pool.maxConn = M ∧ (s.run E ops).pool.connCount ≤ M := by
  induction ops with
  | nil => intro s M h; exact h
  | cons op ops ih =>
    intro s M h
    rw [run_cons]
    exact ih _ M (step_ceiling E s op M h)

/-- Under the usage discipline the resources held by callers and the
resources in the channel are all counted. -/
theorem step_counted (E : Env) (s : Sys) (op : Op)
    (hop : match op with
      | .release c => c ∈ s.held
      | .close c => c ∈ s.held
      | _ => True)
    (h : (s.held.length : Int) + s.pool.pool.buf.length ≤ s.pool.connCount) :
    ((s.step E op).held.length : Int) + (s.step E op).pool.pool.buf.length
      ≤ (s.step E op).pool.connCount := by
  cases op with
  | acquire =>
    rcases Acquire_account E s.pool s.trace with ⟨c, e, ho, ha⟩ | ⟨hn, ha⟩
    · simp only [Sys.step, ho, List.length_cons, Nat.cast_add, Nat.cast_one]
      omega
    · simp only [Sys.step]
      omega
  | release c =>
    have hmem : c ∈ s.held := hop
    have hlen := List.length_erase_of_mem hmem
    have hpos : 0 < s.held.length := List.length_pos_of_mem hmem
    obtain ⟨_, _, _, _, _, f6, _, _, f9⟩ := Release_frame s.pool s.trace c
    rcases f9 with ⟨ho, hb⟩ | ⟨ho, hb⟩
    · simp only [Sys.step, ho, hb, f6, hlen, List.length_append, List.length_singleton,
        Nat.cast_add, Nat.cast_one]
      omega
    · simp only [Sys.step]
      rw [hb]; exact h
  | close c =>
    have hmem : c ∈ s.held := hop
    have hlen := List.length_erase_of_mem hmem
    have hpos : 0 < s.held.length := List.length_pos_of_mem hmem
    simp only [Sys.step, Pool.Close]
    cases E.close c s.trace with
    | some e => simpa using h
    | none => simp only [hlen]; omega
  | shutdown =>
    obtain ⟨_, _, _, _, _, f6, _⟩ := Shutdown_frame s.pool s.trace
    show (s.held.length : Int) + (s.pool.Shutdown s.trace).pool.pool.buf.length
      ≤ (s.pool.Shutdown s.trace).pool.connCount
    omega

theorem run_counted (E : Env) (ops : List Op) :
    ∀ (s : Sys), Sys.Disciplined E s ops →
      (s.held.length : Int) + s.pool.pool.buf.length ≤ s.pool.connCount →
      ((s.run E ops).held.length : Int) + (s.run E ops).pool.pool.buf.length
        ≤ (s.run E ops).pool.connCount := by
  induction ops with
  | nil => intro s _ h; exact h
  | cons op ops ih =>
    intro s hd h
    rw [run_cons]
    exact ih _ hd.2 (step_counted E s op hd.1 h)

/-! ## The bounds of the live count -/

/-- C1, capacity ceiling: in every state reachable from a successful
`NewPool(minConn, maxConn, factory)` by a finite sequence of `Acquire`,
`Release`, `Close` and `Shutdown` steps, whatever `factory`, `Alive` and the
resources' `Close` do, `connCount` is at most the effective `maxConn` (the
supplied one, or 4 when it was not positive), which is the `maxConn` the pool
keeps. -/
theorem capacity_ceiling (E : Env) (minConn maxConn : Int) (tr tr1 : Trace) (p : Pool)
    (h : NewPool E minConn maxConn tr = (.ret (some p, none), tr1)) (ops : List Op) :
    (Sys.run E ⟨p, tr1, []⟩ ops).pool.connCount ≤ effectiveMax maxConn ∧
      (Sys.run E ⟨p, tr1, []⟩ ops).pool.maxConn = effectiveMax maxConn := by
  obtain ⟨_, hM, _, hc, hlen⟩ := NewPool_spec E minConn maxConn tr tr1 p h
  have hle : p.connCount ≤ effectiveMax maxConn := by
    unfold NewPool at h
    split at h
    · simp at h
    · rw [hc]; unfold effectiveMax; split <;> omega
  have := run_ceiling E ops ⟨p, tr1, []⟩ (effectiveMax maxConn) ⟨hM, hle⟩
  exact ⟨this.2, this.1⟩

theorem capacity_ceiling_witness :
    NewPool healthyEnv 2 3 [] =
        (.ret (some ⟨⟨[100, 101], 3, false⟩, 0, 3, 2, false⟩, none),
          [Event.factory, Event.factory]) ∧
      (Sys.run healthyEnv ⟨⟨⟨[100, 101], 3, false⟩, 0, 3, 2, false⟩,
          [Event.factory, Event.factory], []⟩
        [.acquire, .acquire, .acquire, .acquire, .release 100, .close 101, .shutdown]
        ).pool.connCount ≤ effectiveMax 3 ∧
      (Sys.run healthyEnv ⟨⟨⟨[100, 101], 3, false⟩, 0, 3, 2, false⟩,
          [Event.factory, Event.factory], []⟩
        [.acquire, .acquire, .acquire, .acquire, .release 100, .close 101, .shutdown]
        ).pool.maxConn = effectiveMax 3 :=
  ⟨by decide, capacity_ceiling healthyEnv 2 3 [] _ _ (by decide) _⟩

/-- C2, as stated, fails: on the pool of `NewPool(0, 1, factory)` (no warm-up,
`connCount = 0`) one `Close(7)` of a resource the pool never handed out, whose
own `Close()` succeeds, leaves `connCount = -1`; so does a `Release(7)` of such
a resource followed by `Shutdown`. -/
theorem live_count_negative :
    NewPool healthyEnv 0 1 [] = (.ret (some ⟨⟨[], 1, false⟩, 0, 1, 0, false⟩, none), []) ∧
      (Sys.run healthyEnv ⟨⟨⟨[], 1, false⟩, 0, 1, 0, false⟩, [], []⟩ [.close 7]).pool.connCount
        = -1 ∧
      ¬ (0 ≤ (Sys.run healthyEnv ⟨⟨⟨[], 1, false⟩, 0, 1, 0, false⟩, [], []⟩
        [.close 7]).pool.connCount) ∧
      (Sys.run healthyEnv ⟨⟨⟨[], 1, false⟩, 0, 1, 0, false⟩, [], []⟩
        [.release 7, .shutdown]).pool.connCount = -1 := by
  decide

/-- C2, amended (lower bound under the usage discipline): in every state
reachable from a successful `NewPool` by a finite sequence of `Acquire`,
`Release`, `Close` and `Shutdown` steps in which `Release` and `Close` are
only passed a resource a caller holds at that moment (handed out by `Acquire`
and not yet released or closed without error), `0 ≤ connCount`. -/
theorem live_count_nonneg (E : Env) (minConn maxConn : Int) (tr tr1 : Trace) (p : Pool)
    (h : NewPool E minConn maxConn tr = (.ret (some p, none), tr1)) (ops : List Op)
    (hd : Sys.Disciplined E ⟨p, tr1, []⟩ ops) :
    0 ≤ (Sys.run E ⟨p, tr1, []⟩ ops).pool.connCount := by
  obtain ⟨_, _, _, hc, _⟩ := NewPool_spec E minConn maxConn tr tr1 p h
  have := run_counted E ops ⟨p, tr1, []⟩ hd (by simp [hc])
  omega

theorem live_count_nonneg_witness :
    NewPool healthyEnv 2 3 [] =
        (.ret (some ⟨⟨[100, 101], 3, false⟩, 0, 3, 2, false⟩, none),
          [Event.factory, Event.factory]) ∧
      Sys.Disciplined healthyEnv ⟨⟨⟨[100, 101], 3, false⟩, 0, 3, 2, false⟩,
          [Event.factory, Event.factory], []⟩
        [.acquire, .acquire, .close 100, .acquire, .release 101, .shutdown, .close 102] ∧
      0 ≤ (Sys.run healthyEnv ⟨⟨⟨[100, 101], 3, false⟩, 0, 3, 2, false⟩,
          [Event.factory, Event.factory], []⟩
        [.acquire, .acquire, .close 100, .acquire, .release 101, .shutdown, .close 102]
        ).pool.connCount :=
  ⟨by decide, by simp [Sys.Disciplined, Sys.step, Pool.Acquire, Pool.tryResource, Pool.Close,
      Pool.Release, Pool.Shutdown, Pool.drain, Chan.send, healthyEnv, factoryCalls],
    live_count_nonneg healthyEnv 2 3 [] _ _ (by decide) _
      (by simp [Sys.Disciplined, Sys.step, Pool.Acquire, Pool.tryResource, Pool.Close,
      Pool.Release, Pool.Shutdown, Pool.drain, Chan.send, healthyEnv, factoryCalls])⟩

/-! ## The four ways `Acquire` ends on an open pool -/

/-- The loop on a channel that starts with resources probed dead: each is
probed, closed and dropped, and the loop goes on with what is behind them. -/
theorem tryResource_dead (E : Env) (pre : List Conn) (rest : List Conn) :
    ∀ (p : Pool) (tr : Trace), p.pool.buf = pre ++ rest → probedDead E pre tr = true →
      Pool.tryResource E (pre ++ rest) p tr =
        Pool.tryResource E rest
          { p with pool := { p.pool with buf := rest },
                   connCount := p.connCount - closedCleanly E pre tr }
          (tr ++ reapTrace pre) := by
  induction pre with
  | nil =>
    intro p tr hb _
    simp only [List.nil_append] at hb
    simp [closedCleanly, reapTrace, ← hb]
  | cons d ds ih =>
    intro p tr hb hd
    simp only [probedDead, Bool.and_eq_true, Bool.not_eq_true'] at hd
    have htr : tr ++ [Event.alive d] ++ [Event.close d] = tr ++ [Event.alive d, Event.close d] := by
      simp
    have hstep : Pool.tryResource E (d :: (ds ++ rest)) p tr =
        Pool.tryResource E (ds ++ rest)
          (Pool.Close E { p with pool := { p.pool with buf := ds ++ rest } }
            (tr ++ [Event.alive d]) d).pool
          (tr ++ [Event.alive d, Event.close d]) := by
      rw [Pool.tryResource]
      simp only [hd.1, Bool.false_eq_true, if_false]
      rw [Close_trace, htr]
    rw [List.cons_append, hstep, ih _ _ (by rw [(Close_pool_chan E _ _ d).1]) hd.2]
    simp only [closedCleanly, reapTrace]
    congr 1
    · unfold Pool.Close
      cases E.close d (tr ++ [Event.alive d]) <;> simp
      omega
    · simp

theorem closedCleanly_le (E : Env) (pre : List Conn) :
    ∀ tr : Trace, closedCleanly E pre tr ≤ pre.length := by
  induction pre with
  | nil => intro tr; simp [closedCleanly]
  | cons d ds ih =>
    intro tr
    have := ih (tr ++ [Event.alive d, Event.close d])
    simp only [closedCleanly, List.length_cons]
    split <;> omega

theorem closedCleanly_all (E : Env) (pre : List Conn) :
    ∀ tr : Trace, (∀ d ∈ pre, ∀ t, E.close d t = none) →
      closedCleanly E pre tr = pre.length := by
  induction pre with
  | nil => intro tr _; simp [closedCleanly]
  | cons d ds ih =>
    intro tr h
    have := ih (tr ++ [Event.alive d, Event.close d]) (fun x hx => h x (List.mem_cons_of_mem _ hx))
    simp only [closedCleanly, List.length_cons, h d (List.mem_cons_self _ _), if_true, this]
    omega

theorem reapTrace_counts (pre : List Conn) :
    factoryCalls (reapTrace pre) = 0 ∧
      ∀ d, closeCalls d (reapTrace pre) = pre.count d ∧
        (reapTrace pre).count (Event.alive d) = pre.count d := by
  induction pre with
  | nil => simp [reapTrace, factoryCalls, closeCalls]
  | cons x xs ih =>
    obtain ⟨h1, h2⟩ := ih
    unfold factoryCalls closeCalls at *
    refine ⟨by simp [reapTrace, List.count_cons, h1], fun d => ?_⟩
    obtain ⟨h3, h4⟩ := h2 d
    simp [reapTrace, List.count_cons, h3, h4]

/-- An open pool whose channel starts with an alive resource hands it out. -/
theorem Acquire_idle (E : Env) (p : Pool) (tr : Trace) (c : Conn) (rest : List Conn)
    (hopen : p.closed = false) (hb : p.pool.buf = c :: rest) (ha : E.alive c tr = true) :
    p.Acquire E tr =
      ⟨.ret (some c, none), { p with pool := { p.pool with buf := rest } },
        tr ++ [Event.alive c]⟩ := by
  simp [Pool.Acquire, hopen, hb, Pool.tryResource, ha]

/-- An open pool with an empty channel, below capacity, whose factory
succeeds. -/
theorem Acquire_build (E : Env) (p : Pool) (tr : Trace) (c : Conn)
    (hopen : p.closed = false) (hch : p.pool.closed = false) (hb : p.pool.buf = [])
    (hlt : p.connCount < p.maxConn) (hf : E.factory tr = .ok c) :
    p.Acquire E tr =
      ⟨.ret (some c, none), { p with connCount := p.connCount + 1 },
        tr ++ [Event.factory]⟩ := by
  simp [Pool.Acquire, hopen, hb, Pool.tryResource, hch, not_le.mpr hlt, hf]

/-- An open pool with an empty channel, below capacity, whose factory
fails. -/
theorem Acquire_build_error (E : Env) (p : Pool) (tr : Trace) (e : Err)
    (hopen : p.closed = false) (hch : p.pool.closed = false) (hb : p.pool.buf = [])
    (hlt : p.connCount < p.maxConn) (hf : E.factory tr = .error e) :
    p.Acquire E tr = ⟨.ret (none, some e), p, tr ++ [Event.factory]⟩ := by
  simp [Pool.Acquire, hopen, hb, Pool.tryResource, hch, not_le.mpr hlt, hf]

/-- An open pool with an empty channel, at capacity. -/
theorem Acquire_blocked (E : Env) (p : Pool) (tr : Trace)
    (hopen : p.closed = false) (hch : p.pool.closed = false) (hb : p.pool.buf = [])
    (hge : p.maxConn ≤ p.connCount) :
    p.Acquire E tr = ⟨.blocked, p, tr⟩ := by
  simp [Pool.Acquire, hopen, hb, Pool.tryResource, hch, hge]

/-! ## Filling the pool to capacity -/

theorem warmUp_all_ok (E : Env) (hf : ∀ t, ∃ c, E.factory t = .ok c) (n : Nat) :
    ∀ (p : Pool) (tr : Trace), p.pool.closed = false → p.pool.buf.length + n ≤ p.pool.cap →
      (warmUp E n p tr).pool.pool.buf.length = p.pool.buf.length + n := by
  induction n with
  | zero => intro p tr _ _; simp [warmUp]
  | succ n ih =>
    intro p tr hc hcap
    obtain ⟨c, hc1⟩ := hf tr
    have hlt : p.pool.buf.length < p.pool.cap := by omega
    simp only [warmUp, hc1, Chan.send, hc, hlt, if_true, Bool.false_eq_true, if_false]
    rw [ih _ _ rfl (by simp only [List.length_append, List.length_singleton]; omega)]
    simp only [List.length_append, List.length_singleton]
    omega

theorem NewPool_all_ok (E : Env) (hf : ∀ t, ∃ c, E.factory t = .ok c)
    (minConn maxConn : Int) (tr tr1 : Trace) (p : Pool)
    (h : NewPool E minConn maxConn tr = (.ret (some p, none), tr1)) :
    p.pool.buf.length = minConn.toNat := by
  rcases NewPool_cases E minConn maxConn tr with ⟨_, h1⟩ | ⟨_, _, h1⟩ | ⟨_, _, h1⟩
  · rw [h1] at h; simp at h
  · rw [h1] at h; simp at h
  · rw [h1] at h
    simp only [Prod.mk.injEq, Outcome.ret.injEq, Option.some.injEq, and_true] at h
    rw [← h.1]
    exact warmed_all_ok E hf minConn.toNat tr

/-- `NewPool` returns a pool and no error when `minConn ≤ maxConn` and the
runtime can allocate a channel of the effective capacity. -/
theorem NewPool_succeeds (E : Env) (minConn maxConn : Int) (tr : Trace)
    (hle : minConn ≤ maxConn) (hfit : effectiveMax maxConn ≤ (E.chanLimit : Int)) :
    ∃ p tr1, NewPool E minConn maxConn tr = (.ret (some p, none), tr1) := by
  rcases NewPool_cases E minConn maxConn tr with ⟨hlt, _⟩ | ⟨_, hbig, _⟩ | ⟨_, _, h1⟩
  · omega
  · omega
  · exact ⟨_, _, h1⟩

theorem run_snoc (E : Env) (s : Sys) (ops : List Op) (op : Op) :
    s.run E (ops ++ [op]) = (s.run E ops).step E op := by
  simp [Sys.run, List.foldl_append]

/-- The state after `i` consecutive `Acquire` calls on a pool whose `m` idle
resources are alive and whose factory succeeds, as long as `i ≤ maxConn`. -/
theorem run_acquires (E : Env) (hf : ∀ t, ∃ c, E.factory t = .ok c)
    (ha : ∀ c t, E.alive c t = true) (p : Pool) (tr : Trace)
    (hopen : p.closed = false) (hch : p.pool.closed = false)
    (hcount : p.connCount = p.pool.buf.length) (i : Nat) (hi : (i : Int) ≤ p.maxConn) :
    (Sys.run E ⟨p, tr, []⟩ (List.replicate i .acquire)).pool =
      { p with pool := { p.pool with buf := p.pool.buf.drop i },
               connCount := max p.connCount i } := by
  induction i with
  | zero =>
    have h0 : max p.connCount ((0 : Nat) : Int) = p.connCount := by
      rw [hcount]; omega
    simp only [List.replicate_zero, Sys.run, List.foldl_nil, List.drop_zero, h0]
  | succ i ih =>
    have ih := ih (by omega)
    rw [List.replicate_succ', run_snoc, (step_acquire E _).1]
    generalize Sys.run E ⟨p, tr, []⟩ (List.replicate i .acquire) = s at ih ⊢
    have hqo : s.pool.closed = false := by rw [ih]; exact hopen
    have hqc : s.pool.pool.closed = false := by rw [ih]; exact hch
    have hqb : s.pool.pool.buf = p.pool.buf.drop i := by rw [ih]
    have hqn : s.pool.connCount = max p.connCount i := by rw [ih]
    have hqm : s.pool.maxConn = p.maxConn := by rw [ih]
    cases hd : p.pool.buf.drop i with
    | nil =>
      have hlen : p.pool.buf.length ≤ i := List.drop_eq_nil_iff.mp hd
      obtain ⟨c, hc⟩ := hf s.trace
      rw [Acquire_build E s.pool s.trace c hqo hqc (hqb.trans hd) (by omega) hc]
      have hd1 : p.pool.buf.drop (i + 1) = [] := List.drop_eq_nil_iff.mpr (by omega)
      have hmax : s.pool.connCount + 1 = max p.connCount ((i + 1 : Nat) : Int) := by
        rw [hqn]; push_cast; omega
      simp only [hd1, hmax]
      rw [ih, hd]
    | cons c rest =>
      have hlen : i < p.pool.buf.length := by
        by_contra hcon
        rw [List.drop_eq_nil_iff.mpr (by omega)] at hd
        cases hd
      rw [Acquire_idle E s.pool s.trace c rest hqo (hqb.trans hd) (ha c _)]
      have hd1 : p.pool.buf.drop (i + 1) = rest := by
        rw [← List.drop_drop 1 i, hd]; rfl
      have hmax : max p.connCount (i : Int) = max p.connCount ((i + 1 : Nat) : Int) := by
        push_cast; omega
      simp only [hd1]
      rw [ih, hmax]

/-- C3, fill to capacity, then block: let `NewPool(minConn, maxConn, factory)`
with `maxConn > 0` have returned the pool `p`, with a factory that always
succeeds and resources that are always alive.  On this fresh pool `liveCount`
is `max(minConn, 0)`; each of `maxConn` consecutive `Acquire` calls returns a
resource and no error; call number `i` (from 0) returns the `i`-th warmed
resource without a `factory` call when `i < minConn`, and makes exactly one
`factory` call otherwise; afterwards `liveCount = maxConn` and the idle buffer
is empty, and one more `Acquire` blocks, leaving the pool and the record of
external calls as they were. -/
theorem fill_then_block (E : Env) (minConn maxConn : Int) (tr tr1 : Trace) (p : Pool)
    (hpos : 0 < maxConn)
    (hf : ∀ t, ∃ c, E.factory t = .ok c) (ha : ∀ c t, E.alive c t = true)
    (h : NewPool E minConn maxConn tr = (.ret (some p, none), tr1)) :
    p.connCount = max minConn 0 ∧
    (∀ i : Nat, (i : Int) < maxConn →
      ∃ c, ((afterAcquires E p tr1 i).pool.Acquire E (afterAcquires E p tr1 i).trace).out
            = .ret (some c, none) ∧
        ((i : Int) < minConn → p.pool.buf[i]? = some c ∧
          factoryCalls ((afterAcquires E p tr1 i).pool.Acquire E
              (afterAcquires E p tr1 i).trace).trace
            = factoryCalls (afterAcquires E p tr1 i).trace) ∧
        (minConn ≤ (i : Int) →
          factoryCalls ((afterAcquires E p tr1 i).pool.Acquire E
              (afterAcquires E p tr1 i).trace).trace
            = factoryCalls (afterAcquires E p tr1 i).trace + 1)) ∧
    (afterAcquires E p tr1 maxConn.toNat).pool.connCount = maxConn ∧
    (afterAcquires E p tr1 maxConn.toNat).pool.pool.buf = [] ∧
    (afterAcquires E p tr1 maxConn.toNat).pool.Acquire E
        (afterAcquires E p tr1 maxConn.toNat).trace
      = ⟨.blocked, (afterAcquires E p tr1 maxConn.toNat).pool,
          (afterAcquires E p tr1 maxConn.toNat).trace⟩ := by
  have hle : minConn ≤ maxConn := by
    rcases NewPool_cases E minConn maxConn tr with ⟨_, h1⟩ | ⟨hlt, _, _⟩ | ⟨hlt, _, _⟩
    · rw [h1] at h; simp at h
    · omega
    · omega
  obtain ⟨hwf, hM, hopen, hc, _⟩ := NewPool_spec E minConn maxConn tr tr1 p h
  have hlen := NewPool_all_ok E hf minConn maxConn tr tr1 p h
  have hch : p.pool.closed = false := by rw [hwf.2.2.2, hopen]
  have hMax : p.maxConn = maxConn := by
    rw [hM]; unfold effectiveMax; split <;> omega
  have hfit : minConn ≤ maxConn := hle
  have hstate : ∀ i : Nat, (i : Int) ≤ maxConn →
      (afterAcquires E p tr1 i).pool =
        { p with pool := { p.pool with buf := p.pool.buf.drop i },
                 connCount := max p.connCount i } :=
    fun i hi => run_acquires E hf ha p tr1 hopen hch hc i (by rw [hMax]; exact hi)
  refine ⟨by rw [hc, hlen]; omega, ?_, ?_, ?_, ?_⟩
  · intro i hi
    have hs := hstate i (le_of_lt hi)
    generalize afterAcquires E p tr1 i = s at hs ⊢
    have hqo : s.pool.closed = false := by rw [hs]; exact hopen
    have hqc : s.pool.pool.closed = false := by rw [hs]; exact hch
    have hqb : s.pool.pool.buf = p.pool.buf.drop i := by rw [hs]
    have hqn : s.pool.connCount = max p.connCount i := by rw [hs]
    have hqm : s.pool.maxConn = p.maxConn := by rw [hs]
    by_cases hlt : i < p.pool.buf.length
    · have hd : p.pool.buf.drop i = p.pool.buf[i] :: p.pool.buf.drop (i + 1) :=
        List.drop_eq_getElem_cons hlt
      rw [Acquire_idle E s.pool s.trace _ _ hqo (hqb.trans hd) (ha _ _)]
      refine ⟨p.pool.buf[i], rfl, fun _ => ⟨List.getElem?_eq_getElem hlt, ?_⟩, fun hge => ?_⟩
      · simp [factoryCalls, List.count_append]
      · omega
    · have hd : p.pool.buf.drop i = [] := List.drop_eq_nil_iff.mpr (by omega)
      obtain ⟨c, hc1⟩ := hf s.trace
      rw [Acquire_build E s.pool s.trace c hqo hqc (hqb.trans hd) (by omega) hc1]
      refine ⟨c, rfl, fun hlt2 => ?_, fun _ => ?_⟩
      · omega
      · simp [factoryCalls, List.count_append]
  · rw [hstate _ (by omega)]
    simp only [hc, hlen]
    omega
  · rw [hstate _ (by omega)]
    exact List.drop_eq_nil_iff.mpr (by omega)
  · have hs := hstate maxConn.toNat (by omega)
    generalize afterAcquires E p tr1 maxConn.toNat = s at hs ⊢
    have hqo : s.pool.closed = false := by rw [hs]; exact hopen
    have hqc : s.pool.pool.closed = false := by rw [hs]; exact hch
    have hqb : s.pool.pool.buf = [] := by
      rw [hs]; exact List.drop_eq_nil_iff.mpr (by omega)
    have hqn : s.pool.connCount = max p.connCount maxConn.toNat := by rw [hs]
    have hqm : s.pool.maxConn = p.maxConn := by rw [hs]
    exact Acquire_blocked E s.pool s.trace hqo hqc hqb (by omega)

theorem fill_then_block_witness :
    (0 : Int) < 3 ∧ (∀ t, ∃ c, healthyEnv.factory t = .ok c) ∧
      (∀ c t, healthyEnv.alive c t = true) ∧
      NewPool healthyEnv 2 3 [] =
        (.ret (some ⟨⟨[100, 101], 3, false⟩, 0, 3, 2, false⟩, none),
          [Event.factory, Event.factory]) ∧
      (⟨⟨[100, 101], 3, false⟩, 0, 3, 2, false⟩ : Pool).connCount = max 2 0 ∧
      (afterAcquires healthyEnv ⟨⟨[100, 101], 3, false⟩, 0, 3, 2, false⟩
          [Event.factory, Event.factory] (3 : Int).toNat).pool.connCount = 3 ∧
      ((afterAcquires healthyEnv ⟨⟨[100, 101], 3, false⟩, 0, 3, 2, false⟩
          [Event.factory, Event.factory] (3 : Int).toNat).pool.Acquire healthyEnv
          (afterAcquires healthyEnv ⟨⟨[100, 101], 3, false⟩, 0, 3, 2, false⟩
            [Event.factory, Event.factory] (3 : Int).toNat).trace).out = .blocked ∧
      NewPool healthyEnv 5 10 [] =
        (.ret (some ⟨⟨[100, 101, 102, 103, 104], 10, false⟩, 0, 10, 5, false⟩, none),
          List.replicate 5 Event.factory) ∧
      (∀ i : Nat, (i : Int) < 10 →
        ∃ c, ((afterAcquires healthyEnv ⟨⟨[100, 101, 102, 103, 104], 10, false⟩, 0, 10, 5, false⟩
            (List.replicate 5 Event.factory) i).pool.Acquire healthyEnv
          (afterAcquires healthyEnv ⟨⟨[100, 101, 102, 103, 104], 10, false⟩, 0, 10, 5, false⟩
            (List.replicate 5 Event.factory) i).trace).out = .ret (some c, none)) :=
  have hf : ∀ t, ∃ c, healthyEnv.factory t = .ok c := fun t => ⟨_, rfl⟩
  have ha : ∀ c t, healthyEnv.alive c t = true := fun _ _ => rfl
  have w := fill_then_block healthyEnv 2 3 [] _ _ (by decide) hf ha (by decide)
  have w2 := fill_then_block healthyEnv 5 10 [] _ _ (by decide) hf ha (by decide)
  ⟨by decide, hf, ha, by decide, w.1, w.2.2.1, congrArg Step.out w.2.2.2.2, by decide,
    fun i hi => (w2.2.1 i hi).imp fun c hc => hc.1⟩

/-! ## Serving from the idle buffer and reaping -/

/-- An `Acquire` that finds resources probed dead at the head of the channel
goes on as an `Acquire` on the pool without them. -/
theorem Acquire_after_reap (E : Env) (p : Pool) (tr : Trace) (pre rest : List Conn)
    (hopen : p.closed = false)
    (hb : p.pool.buf = pre ++ rest) (hdead : probedDead E pre tr = true) :
    p.Acquire E tr =
      Pool.Acquire E
        { p with pool := { p.pool with buf := rest },
                 connCount := p.connCount - closedCleanly E pre tr }
        (tr ++ reapTrace pre) := by
  unfold Pool.Acquire
  simp only
  rw [hb, tryResource_dead E pre rest p tr hb hdead]
  simp [hopen]

/-- C4, `Acquire` serves the oldest alive idle resource and never a dead one:
on an open pool whose idle buffer is `pre ++ c :: rest`, where the probes of
the resources of `pre` answer `false` and the probe of `c` then answers
`true` (so `c` is the first resource in FIFO order whose `Alive()` probe is
true), `Acquire` returns `c` and no error without a `factory` call; the
resources ahead of `c` are gone from the idle buffer, none of them is
returned by this call, and `rest` stays in the buffer in the same order.  The
external calls of the `Acquire` are the probe and close of each resource of
`pre` and the probe of `c`. -/
theorem Acquire_serves_oldest_alive (E : Env) (p : Pool) (tr : Trace)
    (pre : List Conn) (c : Conn) (rest : List Conn)
    (hopen : p.closed = false) (hb : p.pool.buf = pre ++ c :: rest)
    (hdead : probedDead E pre tr = true)
    (halive : E.alive c (tr ++ reapTrace pre) = true) :
    (p.Acquire E tr).out = .ret (some c, none) ∧
      (p.Acquire E tr).pool.pool.buf = rest ∧
      factoryCalls (p.Acquire E tr).trace = factoryCalls tr ∧
      (p.Acquire E tr).trace = tr ++ reapTrace pre ++ [Event.alive c] := by
  have hq := Acquire_idle E
    { p with pool := { p.pool with buf := c :: rest },
             connCount := p.connCount - closedCleanly E pre tr }
    (tr ++ reapTrace pre) c rest hopen rfl halive
  rw [Acquire_after_reap E p tr pre (c :: rest) hopen hb hdead, hq]
  refine ⟨rfl, rfl, ?_, rfl⟩
  have := (reapTrace_counts pre).1
  unfold factoryCalls at *
  simp [List.count_append, this]

theorem Acquire_serves_oldest_alive_witness :
    (⟨⟨[1, 2, 3], 3, false⟩, 0, 3, 3, false⟩ : Pool).closed = false ∧
      (⟨⟨[1, 2, 3], 3, false⟩, 0, 3, 3, false⟩ : Pool).pool.buf = [1] ++ 2 :: [3] ∧
      probedDead staleEnv [1] [] = true ∧
      staleEnv.alive 2 ([] ++ reapTrace [1]) = true ∧
      (Pool.Acquire staleEnv ⟨⟨[1, 2, 3], 3, false⟩, 0, 3, 3, false⟩ []).out
        = .ret (some 2, none) ∧
      (Pool.Acquire staleEnv ⟨⟨[1, 2, 3], 3, false⟩, 0, 3, 3, false⟩ []).pool.pool.buf = [3] :=
  have w := Acquire_serves_oldest_alive staleEnv ⟨⟨[1, 2, 3], 3, false⟩, 0, 3, 3, false⟩ []
    [1] 2 [3] rfl rfl (by decide) (by decide)
  ⟨rfl, rfl, by decide, by decide, w.1, w.2.1⟩

/-- C5, as stated, fails: on the pool of `NewPool(2, 2, factory)` whose idle
buffer is `[1, 2]`, resource `1` is dead and its `Close()` fails.  `Acquire`
pulls `1`, probes it dead, closes it, and serves `2`; one dead resource came
before the one served, yet `connCount` is still `2`, not `2 - 1`. -/
theorem reap_keeps_count_on_close_error :
    NewPool staleEnv 2 2 [] =
        (.ret (some ⟨⟨[1, 2], 2, false⟩, 0, 2, 2, false⟩, none),
          [Event.factory, Event.factory]) ∧
      staleEnv.alive 1 [Event.factory, Event.factory] = false ∧
      (Pool.Acquire staleEnv ⟨⟨[1, 2], 2, false⟩, 0, 2, 2, false⟩
          [Event.factory, Event.factory]).out = .ret (some 2, none) ∧
      (Pool.Acquire staleEnv ⟨⟨[1, 2], 2, false⟩, 0, 2, 2, false⟩
          [Event.factory, Event.factory]).trace =
        [Event.factory, Event.factory, Event.alive 1, Event.close 1, Event.alive 2] ∧
      (Pool.Acquire staleEnv ⟨⟨[1, 2], 2, false⟩, 0, 2, 2, false⟩
          [Event.factory, Event.factory]).pool.connCount = 2 ∧
      (Pool.Acquire staleEnv ⟨⟨[1, 2], 2, false⟩, 0, 2, 2, false⟩
          [Event.factory, Event.factory]).pool.connCount ≠ 2 - 1 := by
  decide

/-! ## Well-formed pools -/

theorem step_WF (E : Env) (s : Sys) (op : Op) (h : s.pool.WF) : (s.step E op).pool.WF := by
  obtain ⟨h1, h2, h3, h4⟩ := h
  cases op with
  | acquire =>
    rw [(step_acquire E s).1]
    obtain ⟨f1, f2, _, f4, f5, f6, _⟩ := Acquire_frame E s.pool s.trace
    exact ⟨by rw [f1]; exact h1, by rw [f4, f1]; exact h2, by rw [f4]; omega,
      by rw [f5, f2]; exact h4⟩
  | release c =>
    rw [(step_release E s c).1]
    obtain ⟨f1, f2, _, f4, f5, _, f7, _⟩ := Release_frame s.pool s.trace c
    exact ⟨by rw [f1]; exact h1, by rw [f4, f1]; exact h2, by rw [f4]; omega,
      by rw [f5, f2]; exact h4⟩
  | close c =>
    rw [(step_close E s c).1]
    obtain ⟨c1, c2, c3, _⟩ := Close_pool_chan E s.pool s.trace c
    exact ⟨by rw [c2]; exact h1, by rw [c1, c2]; exact h2, by rw [c1]; exact h3,
      by rw [c1, c3]; exact h4⟩
  | shutdown =>
    obtain ⟨f1, _, f3, _, f5, _, _, f8⟩ := Shutdown_frame s.pool s.trace
    obtain ⟨g1, g2⟩ := f8 h4
    show (s.pool.Shutdown s.trace).pool.WF
    exact ⟨by rw [f1]; exact h1, by rw [f3, f1]; exact h2, by rw [f3]; omega,
      by rw [g1, g2]⟩

/-- Every pool reachable from a successful `NewPool` is well formed. -/
theorem run_WF (E : Env) (ops : List Op) :
    ∀ s : Sys, s.pool.WF → (s.run E ops).pool.WF := by
  induction ops with
  | nil => intro s h; exact h
  | cons op ops ih =>
    intro s h
    rw [run_cons]
    exact ih _ (step_WF E s op h)

theorem step_closed (E : Env) (s : Sys) (op : Op) (h : s.pool.closed = true) :
    (s.step E op).pool.closed = true := by
  cases op with
  | acquire => rw [(step_acquire E s).1, (Acquire_frame E s.pool s.trace).2.1]; exact h
  | release c => rw [(step_release E s c).1, (Release_frame s.pool s.trace c).2.1]; exact h
  | close c => rw [(step_close E s c).1, (Close_pool_chan E s.pool s.trace c).2.2.1]; exact h
  | shutdown =>
    show (s.pool.Shutdown s.trace).pool.closed = true
    rw [(Shutdown_frame s.pool s.trace).2.2.2.2.2.2.1 h]; exact h

theorem run_closed (E : Env) (ops : List Op) :
    ∀ s : Sys, s.pool.closed = true → (s.run E ops).pool.closed = true := by
  induction ops with
  | nil => intro s h; exact h
  | cons op ops ih =>
    intro s h
    rw [run_cons]
    exact ih _ (step_closed E s op h)

/-! ## Construction on demand -/

/-- C6, on-demand construction and factory error: on an open pool (flag
unset, channel open) with an empty idle buffer and `connCount < maxConn`,
`Acquire` makes exactly one external call, a `factory` call; if `factory`
returns the error `e`, `Acquire` returns exactly `e` and no resource, and the
pool (`connCount`, idle buffer, `closed`, everything) is unchanged; if it
returns the resource `c`, `Acquire` returns `c` and no error, `connCount` is
one more, the idle buffer stays empty and nothing else changes. -/
theorem Acquire_on_demand (E : Env) (p : Pool) (tr : Trace)
    (hopen : p.closed = false) (hch : p.pool.closed = false) (hb : p.pool.buf = [])
    (hlt : p.connCount < p.maxConn) :
    (p.Acquire E tr).trace = tr ++ [Event.factory] ∧
      factoryCalls (p.Acquire E tr).trace = factoryCalls tr + 1 ∧
      (∀ e, E.factory tr = .error e →
        (p.Acquire E tr).out = .ret (none, some e) ∧ (p.Acquire E tr).pool = p) ∧
      (∀ c, E.factory tr = .ok c →
        (p.Acquire E tr).out = .ret (some c, none) ∧
        (p.Acquire E tr).pool.connCount = p.connCount + 1 ∧
        (p.Acquire E tr).pool.pool.buf = [] ∧
        (p.Acquire E tr).pool = { p with connCount := p.connCount + 1 }) := by
  cases hf : E.factory tr with
  | error e =>
    rw [Acquire_build_error E p tr e hopen hch hb hlt hf]
    refine ⟨rfl, by simp [factoryCalls, List.count_append], fun e1 he => ?_, fun c hc => ?_⟩
    · cases he; exact ⟨rfl, rfl⟩
    · cases hc
  | ok c =>
    rw [Acquire_build E p tr c hopen hch hb hlt hf]
    refine ⟨rfl, by simp [factoryCalls, List.count_append], fun e1 he => ?_, fun c1 hc => ?_⟩
    · cases he
    · cases hc; exact ⟨rfl, rfl, hb, rfl⟩

theorem Acquire_on_demand_witness :
    NewPool thirdFailsEnv 2 3 [] =
        (.ret (some ⟨⟨[100, 101], 3, false⟩, 0, 3, 2, false⟩, none),
          [Event.factory, Event.factory]) ∧
      (afterAcquires thirdFailsEnv ⟨⟨[100, 101], 3, false⟩, 0, 3, 2, false⟩
          [Event.factory, Event.factory] 2).pool = ⟨⟨[], 3, false⟩, 0, 3, 2, false⟩ ∧
      (afterAcquires thirdFailsEnv ⟨⟨[100, 101], 3, false⟩, 0, 3, 2, false⟩
          [Event.factory, Event.factory] 2).trace =
        [Event.factory, Event.factory, Event.alive 100, Event.alive 101] ∧
      (⟨⟨[], 3, false⟩, 0, 3, 2, false⟩ : Pool).connCount
        < (⟨⟨[], 3, false⟩, 0, 3, 2, false⟩ : Pool).maxConn ∧
      thirdFailsEnv.factory [Event.factory, Event.factory, Event.alive 100, Event.alive 101]
        = .error (Err.other 7) ∧
      (Pool.Acquire thirdFailsEnv ⟨⟨[], 3, false⟩, 0, 3, 2, false⟩
          [Event.factory, Event.factory, Event.alive 100, Event.alive 101]).out
        = .ret (none, some (Err.other 7)) ∧
      (Pool.Acquire thirdFailsEnv ⟨⟨[], 3, false⟩, 0, 3, 2, false⟩
          [Event.factory, Event.factory, Event.alive 100, Event.alive 101]).pool
        = ⟨⟨[], 3, false⟩, 0, 3, 2, false⟩ :=
  have w := Acquire_on_demand thirdFailsEnv ⟨⟨[], 3, false⟩, 0, 3, 2, false⟩
    [Event.factory, Event.factory, Event.alive 100, Event.alive 101] rfl rfl rfl (by decide)
  have w3 := w.2.2.1 (Err.other 7) rfl
  ⟨by decide, by decide, by decide, by decide, rfl, w3.1, w3.2⟩

/-! ## Release and the round trip -/

/-- The state after `i` consecutive `Acquire` calls served from the idle
buffer of an open pool whose resources are alive. -/
theorem run_acquires_idle (E : Env) (ha : ∀ c t, E.alive c t = true) (p : Pool) (tr : Trace)
    (hopen : p.closed = false) (i : Nat) (hi : i ≤ p.pool.buf.length) :
    (afterAcquires E p tr i).pool = { p with pool := { p.pool with buf := p.pool.buf.drop i } } ∧
      factoryCalls (afterAcquires E p tr i).trace = factoryCalls tr := by
  unfold afterAcquires
  induction i with
  | zero => simp [Sys.run]
  | succ i ih =>
    obtain ⟨ih1, ih2⟩ := ih (by omega)
    rw [List.replicate_succ', run_snoc, (step_acquire E _).1, (step_acquire E _).2]
    generalize Sys.run E ⟨p, tr, []⟩ (List.replicate i .acquire) = s at ih1 ih2 ⊢
    have hqo : s.pool.closed = false := by rw [ih1]; exact hopen
    have hqb : s.pool.pool.buf = p.pool.buf.drop i := by rw [ih1]
    have hd : p.pool.buf.drop i = p.pool.buf[i] :: p.pool.buf.drop (i + 1) :=
      List.drop_eq_getElem_cons (by omega)
    rw [Acquire_idle E s.pool s.trace _ _ hqo (hqb.trans hd) (ha _ _)]
    refine ⟨?_, ?_⟩
    · simp only
      rw [ih1]
    · simp only [factoryCalls] at ih2 ⊢
      simp [List.count_append, ih2]

/-- C7, `Acquire`/`Release` round trip: on an open, well-formed pool, with
resources that all report alive, let `Acquire` return `r` and leave the pool
`q`.  Then `Release(r)` returns no error, keeps `connCount` and makes no
external call, and `r` is the last element of the idle buffer, behind the
resources idle before; the following `Acquire` calls return those resources
in order and then `r`, none of them with a `factory` call; when the idle
buffer was empty before the `Release`, the very next `Acquire` returns `r`. -/
theorem acquire_release_round_trip (E : Env) (p q : Pool) (tr t : Trace) (r : Conn)
    (hwf : p.WF) (hopen : p.closed = false) (ha : ∀ c t, E.alive c t = true)
    (hacq : p.Acquire E tr = ⟨.ret (some r, none), q, t⟩) :
    (q.Release t r).out = .ret none ∧
      (q.Release t r).pool.connCount = q.connCount ∧
      (q.Release t r).pool.pool.buf = q.pool.buf ++ [r] ∧
      (q.Release t r).trace = t ∧
      (∀ i : Nat, i ≤ q.pool.buf.length →
        ((afterAcquires E (q.Release t r).pool t i).pool.Acquire E
            (afterAcquires E (q.Release t r).pool t i).trace).out
          = .ret ((q.pool.buf ++ [r])[i]?, none) ∧
        factoryCalls ((afterAcquires E (q.Release t r).pool t i).pool.Acquire E
            (afterAcquires E (q.Release t r).pool t i).trace).trace = factoryCalls t) ∧
      (q.pool.buf = [] → ((q.Release t r).pool.Acquire E t).out = .ret (some r, none)) := by
  obtain ⟨w1, w2, w3, w4⟩ := hwf
  obtain ⟨f1, f2, _, f4, f5, f6, _⟩ := Acquire_frame E p tr
  have hq : (p.Acquire E tr).pool = q := by rw [hacq]
  rw [hq] at f1 f2 f4 f5 f6
  have hqo : q.closed = false := by rw [f2]; exact hopen
  have hqc : q.pool.closed = false := by rw [f5, w4]; exact hopen
  have hroom : q.pool.buf.length < q.pool.cap := by
    cases hb : p.pool.buf with
    | nil =>
      rw [hb] at f6
      simp only [List.length_nil, Nat.le_zero_eq] at f6
      rw [f6, f4, w2]
      omega
    | cons c rest =>
      rw [Acquire_idle E p tr c rest hopen hb (ha c tr)] at hacq
      have hq2 : q = { p with pool := { p.pool with buf := rest } } := by
        have := congrArg Step.pool hacq
        exact this.symm
      rw [hq2]
      have : (c :: rest).length ≤ p.pool.cap := by rw [← hb]; exact w3
      simp only [List.length_cons] at this
      show rest.length < p.pool.cap
      omega
  have hrel : q.Release t r =
      ⟨.ret none, { q with pool := { q.pool with buf := q.pool.buf ++ [r] } }, t⟩ := by
    simp [Pool.Release, Chan.send, hqo, hqc, hroom]
  rw [hrel]
  have key : ∀ i : Nat, i ≤ q.pool.buf.length →
      ((afterAcquires E { q with pool := { q.pool with buf := q.pool.buf ++ [r] } } t i).pool.Acquire E
          (afterAcquires E { q with pool := { q.pool with buf := q.pool.buf ++ [r] } } t i).trace).out
        = .ret ((q.pool.buf ++ [r])[i]?, none) ∧
      factoryCalls ((afterAcquires E { q with pool := { q.pool with buf := q.pool.buf ++ [r] } }
          t i).pool.Acquire E
          (afterAcquires E { q with pool := { q.pool with buf := q.pool.buf ++ [r] } } t i).trace).trace
        = factoryCalls t := by
    intro i hi
    have hlt : i < (q.pool.buf ++ [r]).length := by
      simp only [List.length_append, List.length_singleton]; omega
    obtain ⟨s1, s2⟩ := run_acquires_idle E ha
      { q with pool := { q.pool with buf := q.pool.buf ++ [r] } } t hqo i (le_of_lt hlt)
    generalize afterAcquires E { q with pool := { q.pool with buf := q.pool.buf ++ [r] } } t i
      = s at s1 s2 ⊢
    have hso : s.pool.closed = false := by rw [s1]; exact hqo
    have hsb : s.pool.pool.buf = (q.pool.buf ++ [r]).drop i := by rw [s1]
    have hd : (q.pool.buf ++ [r]).drop i
        = (q.pool.buf ++ [r])[i] :: (q.pool.buf ++ [r]).drop (i + 1) :=
      List.drop_eq_getElem_cons hlt
    rw [Acquire_idle E s.pool s.trace _ _ hso (hsb.trans hd) (ha _ _)]
    refine ⟨?_, ?_⟩
    · simp only [List.getElem?_eq_getElem hlt]
    · simp only [factoryCalls] at s2 ⊢
      simp [List.count_append, s2]
  refine ⟨rfl, rfl, rfl, rfl, key, fun hb => ?_⟩
  have := (key 0 (Nat.zero_le _)).1
  simpa [afterAcquires, Sys.run, hb] using this

theorem acquire_release_round_trip_witness :
    (⟨⟨[100, 101], 3, false⟩, 0, 3, 2, false⟩ : Pool).WF ∧
      (∀ c t, healthyEnv.alive c t = true) ∧
      Pool.Acquire healthyEnv ⟨⟨[100, 101], 3, false⟩, 0, 3, 2, false⟩ [] =
        ⟨.ret (some 100, none), ⟨⟨[101], 3, false⟩, 0, 3, 2, false⟩, [Event.alive 100]⟩ ∧
      (Pool.Release ⟨⟨[101], 3, false⟩, 0, 3, 2, false⟩ [Event.alive 100] 100).out
        = .ret none ∧
      (Pool.Release ⟨⟨[101], 3, false⟩, 0, 3, 2, false⟩ [Event.alive 100] 100).pool.pool.buf
        = (⟨⟨[101], 3, false⟩, 0, 3, 2, false⟩ : Pool).pool.buf ++ [100] :=
  have hwf : (⟨⟨[100, 101], 3, false⟩, 0, 3, 2, false⟩ : Pool).WF := by
    simp [Pool.WF]
  have ha : ∀ c t, healthyEnv.alive c t = true := fun _ _ => rfl
  have w := acquire_release_round_trip healthyEnv ⟨⟨[100, 101], 3, false⟩, 0, 3, 2, false⟩
    ⟨⟨[101], 3, false⟩, 0, 3, 2, false⟩ [] [Event.alive 100] 100 hwf rfl ha rfl
  ⟨hwf, ha, rfl, w.1, w.2.2.1⟩

/-! ## Close and Shutdown -/

/-- C8, `Close` (reap one): on every pool, open or closed, and for every
resource `c`, `Close(c)` makes exactly one external call, `c.Close()`; if that
returns the error `e`, `Close` returns exactly `e` and the pool (`connCount`,
idle buffer, `closed`) is unchanged; if it returns no error, `Close` returns
no error, `connCount` is one less and the idle buffer, `maxConn` and `closed`
are unchanged. -/
theorem Close_reaps_one (E : Env) (p : Pool) (tr : Trace) (c : Conn) :
    (p.Close E tr c).trace = tr ++ [Event.close c] ∧
      closeCalls c (p.Close E tr c).trace = closeCalls c tr + 1 ∧
      (∀ e, E.close c tr = some e →
        (p.Close E tr c).out = .ret (some e) ∧ (p.Close E tr c).pool = p) ∧
      (E.close c tr = none →
        (p.Close E tr c).out = .ret none ∧
        (p.Close E tr c).pool.connCount = p.connCount - 1 ∧
        (p.Close E tr c).pool.pool = p.pool ∧
        (p.Close E tr c).pool.maxConn = p.maxConn ∧
        (p.Close E tr c).pool.closed = p.closed) := by
  unfold Pool.Close
  cases E.close c tr with
  | none => simp [closeCalls, List.count_append]
  | some e => simp [closeCalls, List.count_append]

/-- C9, `Shutdown` drain: on an open pool (flag unset, channel open) with
idle buffer `[c1..ck]`, `Shutdown` returns no error; its external calls are
exactly one `Close()` on each `ci`, in order, so `Close()` is invoked once per
idle resource and on no resource that is checked out; the idle buffer ends
empty, `connCount` is `k` less, `closed` is set and `maxConn` is unchanged. -/
theorem Shutdown_drains (p : Pool) (tr : Trace)
    (hopen : p.closed = false) (hch : p.pool.closed = false) :
    (p.Shutdown tr).out = .ret none ∧
      (p.Shutdown tr).trace = tr ++ p.pool.buf.map Event.close ∧
      (∀ c, closeCalls c (p.Shutdown tr).trace = closeCalls c tr + p.pool.buf.count c) ∧
      (∀ c, c ∉ p.pool.buf → closeCalls c (p.Shutdown tr).trace = closeCalls c tr) ∧
      (p.Shutdown tr).pool.pool.buf = [] ∧
      (p.Shutdown tr).pool.connCount = p.connCount - p.pool.buf.length ∧
      (p.Shutdown tr).pool.closed = true ∧
      (p.Shutdown tr).pool.maxConn = p.maxConn := by
  obtain ⟨d1, _, _, _, _, d6, d7, d8⟩ :=
    drain_spec p.pool.buf { p with pool := { p.pool with closed := true } } tr
  have hcount : ∀ c, closeCalls c (tr ++ p.pool.buf.map Event.close)
      = closeCalls c tr + p.pool.buf.count c := by
    intro c
    unfold closeCalls
    rw [List.count_append, List.count_map_of_injective _ Event.close
      (fun a b hab => by cases hab; rfl)]
  have hs : p.Shutdown tr =
      ⟨.ret none,
        { (Pool.drain p.pool.buf { p with pool := { p.pool with closed := true } } tr).1 with
          closed := true },
        (Pool.drain p.pool.buf { p with pool := { p.pool with closed := true } } tr).2⟩ := by
    unfold Pool.Shutdown
    rw [if_neg (by simp [hopen]), if_neg (by simp [hch])]
  rw [hs]
  refine ⟨rfl, d8, fun c => ?_, fun c hc => ?_, d7 rfl, d6, rfl, d1⟩
  · show closeCalls c (Pool.drain _ _ _).2 = _
    rw [d8]; exact hcount c
  · show closeCalls c (Pool.drain _ _ _).2 = _
    rw [d8, hcount c, List.count_eq_zero_of_not_mem hc]; rfl

theorem Shutdown_drains_witness :
    (⟨⟨[100, 101], 3, false⟩, 0, 3, 3, false⟩ : Pool).closed = false ∧
      (⟨⟨[100, 101], 3, false⟩, 0, 3, 3, false⟩ : Pool).pool.closed = false ∧
      (Pool.Shutdown ⟨⟨[100, 101], 3, false⟩, 0, 3, 3, false⟩ [Event.factory]).trace
        = [Event.factory] ++
          (⟨⟨[100, 101], 3, false⟩, 0, 3, 3, false⟩ : Pool).pool.buf.map Event.close ∧
      (Pool.Shutdown ⟨⟨[100, 101], 3, false⟩, 0, 3, 3, false⟩ [Event.factory]).pool.connCount
        = (⟨⟨[100, 101], 3, false⟩, 0, 3, 3, false⟩ : Pool).connCount
          - (⟨⟨[100, 101], 3, false⟩, 0, 3, 3, false⟩ : Pool).pool.buf.length :=
  have w := Shutdown_drains ⟨⟨[100, 101], 3, false⟩, 0, 3, 3, false⟩ [Event.factory] rfl rfl
  ⟨rfl, rfl, w.2.1, w.2.2.2.2.2.1⟩

/-- C10, closed is absorbing and `Shutdown` is idempotent: let `Shutdown` have
completed on a pool, leaving the pool `q` and the record `t` of external
calls.  Then `closed` is set; `Acquire` returns `ErrState` and no resource,
`Release(c)` returns `ErrState` for every `c`, and a further `Shutdown`
returns no error; each of the three leaves the pool and the record of
external calls exactly as they were (no `factory`, `Alive` or `Close` call),
so two `Shutdown`s yield the state of one; and `closed` stays set over every
sequence of `Acquire`, `Release`, `Close` and `Shutdown` calls. -/
theorem closed_is_absorbing (E : Env) (p : Pool) (tr : Trace)
    (h : (p.Shutdown tr).out = .ret none) :
    (p.Shutdown tr).pool.closed = true ∧
      Pool.Acquire E (p.Shutdown tr).pool (p.Shutdown tr).trace
        = ⟨.ret (none, some Err.ErrState), (p.Shutdown tr).pool, (p.Shutdown tr).trace⟩ ∧
      (∀ c, Pool.Release (p.Shutdown tr).pool (p.Shutdown tr).trace c
        = ⟨.ret (some Err.ErrState), (p.Shutdown tr).pool, (p.Shutdown tr).trace⟩) ∧
      Pool.Shutdown (p.Shutdown tr).pool (p.Shutdown tr).trace
        = ⟨.ret none, (p.Shutdown tr).pool, (p.Shutdown tr).trace⟩ ∧
      (∀ (ops : List Op) (held : List Conn),
        (Sys.run E ⟨(p.Shutdown tr).pool, (p.Shutdown tr).trace, held⟩ ops).pool.closed
          = true) := by
  have hcl : (p.Shutdown tr).pool.closed = true := by
    unfold Pool.Shutdown at h ⊢
    by_cases h1 : p.closed = true
    · simp [h1]
    · by_cases h2 : p.pool.closed = true
      · simp [h1, h2] at h
      · simp [h1, h2]
  generalize (p.Shutdown tr).pool = q at hcl ⊢
  generalize (p.Shutdown tr).trace = t
  refine ⟨hcl, by simp [Pool.Acquire, hcl], fun c => by simp [Pool.Release, hcl],
    by simp [Pool.Shutdown, hcl], fun ops held => run_closed E ops _ hcl⟩

theorem closed_is_absorbing_witness :
    (Pool.Shutdown ⟨⟨[100, 101], 3, false⟩, 0, 3, 3, false⟩ []).out = .ret none ∧
      (Pool.Shutdown ⟨⟨[100, 101], 3, false⟩, 0, 3, 3, false⟩ []).pool.closed = true ∧
      Pool.Acquire healthyEnv (Pool.Shutdown ⟨⟨[100, 101], 3, false⟩, 0, 3, 3, false⟩ []).pool
          (Pool.Shutdown ⟨⟨[100, 101], 3, false⟩, 0, 3, 3, false⟩ []).trace
        = ⟨.ret (none, some Err.ErrState),
            (Pool.Shutdown ⟨⟨[100, 101], 3, false⟩, 0, 3, 3, false⟩ []).pool,
            (Pool.Shutdown ⟨⟨[100, 101], 3, false⟩, 0, 3, 3, false⟩ []).trace⟩ :=
  have w := closed_is_absorbing healthyEnv ⟨⟨[100, 101], 3, false⟩, 0, 3, 3, false⟩ [] rfl
  ⟨rfl, w.1, w.2.1⟩

/-! ## Construction -/

/-- C11, as stated, fails: with `maxConn = 0` and `minConn = 1` the parameter
check comes before the default and `NewPool` returns `ErrParameter`, whereas
`NewPool(1, 4, factory)` returns a pool. -/
theorem default_max_after_parameter_check :
    NewPool healthyEnv 1 0 [] = (.ret (none, some Err.ErrParameter), []) ∧
      NewPool healthyEnv 1 4 [] =
        (.ret (some ⟨⟨[100], 4, false⟩, 0, 4, 1, false⟩, none), [Event.factory]) ∧
      NewPool healthyEnv 1 0 [] ≠ NewPool healthyEnv 1 4 [] := by
  decide

/-- C11, amended (default maximum): for every `minConn ≤ maxConn ≤ 0` and every
factory, `NewPool(minConn, maxConn, factory)` returns a pool and no error, and
what it returns is what `NewPool(minConn, 4, factory)` returns: effective
`maxConn = 4`, idle capacity 4, `connCount = 0`, empty idle buffer, no
`factory` call. -/
theorem default_max (E : Env) (minConn maxConn : Int) (tr : Trace)
    (hle : minConn ≤ maxConn) (hmax : maxConn ≤ 0) :
    NewPool E minConn maxConn tr =
        (.ret (some ⟨⟨[], 4, false⟩, 0, 4, 0, false⟩, none), tr) ∧
      NewPool E minConn maxConn tr = NewPool E minConn 4 tr := by
  have h0 : minConn.toNat = 0 := by omega
  have key : ∀ mx : Int, minConn ≤ mx → effectiveMax mx = 4 →
      NewPool E minConn mx tr = (.ret (some ⟨⟨[], 4, false⟩, 0, 4, 0, false⟩, none), tr) := by
    intro mx hmx hem
    have hfloor := E.chanLimit_ge
    rcases NewPool_cases E minConn mx tr with ⟨hlt, _⟩ | ⟨_, hbig, _⟩ | ⟨_, _, h1⟩
    · omega
    · rw [hem] at hbig; omega
    · rw [h1, hem, h0]
      simp [warmed]
  have h1 := key maxConn hle (by simp [effectiveMax, hmax])
  have h2 := key 4 (by omega) (by simp [effectiveMax])
  exact ⟨h1, by rw [h1, h2]⟩

theorem default_max_witness :
    (-3 : Int) ≤ 0 ∧ (0 : Int) ≤ 0 ∧
      NewPool staleEnv (-3) 0 [Event.factory] =
        (.ret (some ⟨⟨[], 4, false⟩, 0, 4, 0, false⟩, none), [Event.factory]) ∧
      NewPool staleEnv (-3) 0 [Event.factory] = NewPool staleEnv (-3) 4 [Event.factory] :=
  ⟨by decide, by decide, default_max staleEnv (-3) 0 [Event.factory] (by decide) (by decide)⟩

/-- C12, parameter error: for every `minConn`, `maxConn` and factory, if
`maxConn < minConn` then `NewPool` returns `ErrParameter` and no pool and
makes no `factory` call; and `NewPool` returns an error only in that case:
any error it returns is `ErrParameter`, with no pool and `maxConn < minConn`,
and otherwise, when the runtime can allocate the channel, it returns a pool
and no error. -/
theorem parameter_error (E : Env) (minConn maxConn : Int) (tr : Trace) :
    (maxConn < minConn →
        NewPool E minConn maxConn tr = (.ret (none, some Err.ErrParameter), tr)) ∧
      (¬ maxConn < minConn → effectiveMax maxConn ≤ (E.chanLimit : Int) →
        ∃ p tr1, NewPool E minConn maxConn tr = (.ret (some p, none), tr1)) ∧
      (∀ po e tr1, NewPool E minConn maxConn tr = (.ret (po, some e), tr1) →
        maxConn < minConn ∧ po = none ∧ e = Err.ErrParameter ∧ tr1 = tr) := by
  refine ⟨fun h => by simp [NewPool, h],
    fun h hfit => NewPool_succeeds E minConn maxConn tr (by omega) hfit, fun po e tr1 h => ?_⟩
  rcases NewPool_cases E minConn maxConn tr with ⟨hlt, h1⟩ | ⟨_, _, h1⟩ | ⟨_, _, h1⟩
  · rw [h1] at h
    simp only [Prod.mk.injEq, Outcome.ret.injEq, Option.some.injEq] at h
    obtain ⟨⟨h2, h3⟩, h4⟩ := h
    exact ⟨hlt, h2.symm, h3.symm, h4.symm⟩
  · rw [h1] at h; simp at h
  · rw [h1] at h; simp at h

/-- C13, as stated, fails: with the channel limit `2^44 - 6` of a 64-bit
build, `NewPool(1, 2^62, factory)` has `maxConn ≥ minConn > 0`, yet
`make(chan Conn, maxConn)` panics before any `factory` call: no pool is
returned. -/
theorem warm_up_panics_beyond_limit :
    healthyEnv.chanLimit = 17592186044410 ∧
      (0 : Int) < 1 ∧ (1 : Int) ≤ 4611686018427387904 ∧
      NewPool healthyEnv 1 4611686018427387904 [] = (.panic, []) := by
  refine ⟨rfl, by decide, by decide, ?_⟩
  rcases NewPool_cases healthyEnv 1 4611686018427387904 [] with ⟨h, _⟩ | ⟨_, _, h⟩ | ⟨_, h, _⟩
  · exact absurd h (by decide)
  · exact h
  · exact absurd h (by decide)

/-- C13, amended (best-effort warm-up): for every `maxConn ≥ minConn > 0` that
does not exceed the capacity the runtime can allocate for the channel, and
every factory, `NewPool` makes exactly `minConn` factory calls, one per
iteration whether it fails or not, and returns a pool and no error; in that
pool the idle buffer holds exactly the resources of the successful calls in
construction order, `connCount` is their number, `closed` is false; hence
`0 ≤ connCount ≤ minConn` and `connCount` is the length of the idle buffer. -/
theorem best_effort_warm_up (E : Env) (minConn maxConn : Int) (tr : Trace)
    (hpos : 0 < minConn) (hle : minConn ≤ maxConn) (hfit : maxConn ≤ (E.chanLimit : Int)) :
    ∃ p, NewPool E minConn maxConn tr =
          (.ret (some p, none), tr ++ List.replicate minConn.toNat Event.factory) ∧
      factoryCalls (tr ++ List.replicate minConn.toNat Event.factory)
        = factoryCalls tr + minConn.toNat ∧
      p.pool.buf = warmed E minConn.toNat tr ∧
      p.connCount = (warmed E minConn.toNat tr).length ∧
      p.closed = false ∧ p.pool.closed = false ∧
      p.maxConn = maxConn ∧ p.pool.cap = maxConn.toNat ∧
      0 ≤ p.connCount ∧ p.connCount ≤ minConn ∧ p.connCount = p.pool.buf.length := by
  have hlen := warmed_length_le E minConn.toNat tr
  have hem : effectiveMax maxConn = maxConn := by
    unfold effectiveMax; split <;> omega
  rcases NewPool_cases E minConn maxConn tr with ⟨hlt, _⟩ | ⟨_, hbig, _⟩ | ⟨_, _, hnp⟩
  · omega
  · omega
  · rw [hem] at hnp
    refine ⟨_, hnp, ?_, rfl, rfl, rfl, rfl, rfl, rfl, ?_, ?_, rfl⟩
    · simp [factoryCalls, List.count_append, List.count_replicate]
    · simp
    · simp only; omega

theorem best_effort_warm_up_witness :
    (0 : Int) < 2 ∧ (2 : Int) ≤ 3 ∧ (3 : Int) ≤ (firstFailsEnv.chanLimit : Int) ∧
      ∃ p, NewPool firstFailsEnv 2 3 [] =
          (.ret (some p, none), [] ++ List.replicate (2 : Int).toNat Event.factory) ∧
        p.pool.buf = [101] ∧ p.connCount = 1 :=
  ⟨by decide, by decide, by decide,
    (best_effort_warm_up firstFailsEnv 2 3 [] (by decide) (by decide) (by decide)).imp
      fun p w => ⟨w.1, by rw [w.2.2.1]; decide, by rw [w.2.2.2.1]; decide⟩⟩

/-! ## The shape of every `Acquire` -/

theorem reapTrace_append (pre : List Conn) (c : Conn) :
    reapTrace (pre ++ [c]) = reapTrace pre ++ [Event.alive c, Event.close c] := by
  induction pre with
  | nil => rfl
  | cons d ds ih => simp [reapTrace, ih]

/-- The resources of a buffer are all probed dead, or there is a first one
whose probe answers `true`. -/
theorem probe_split (E : Env) (buf : List Conn) :
    ∀ tr : Trace, probedDead E buf tr = true ∨
      ∃ pre c rest, buf = pre ++ c :: rest ∧ probedDead E pre tr = true ∧
        E.alive c (tr ++ reapTrace pre) = true := by
  induction buf with
  | nil => intro tr; left; rfl
  | cons d ds ih =>
    intro tr
    by_cases ha : E.alive d tr = true
    · right
      exact ⟨[], d, ds, rfl, rfl, by simpa [reapTrace] using ha⟩
    · rcases ih (tr ++ [Event.alive d, Event.close d]) with h | ⟨pre, c, rest, h1, h2, h3⟩
      · left
        simp only [probedDead, Bool.and_eq_true, Bool.not_eq_true']
        exact ⟨by simpa using ha, h⟩
      · right
        refine ⟨d :: pre, c, rest, by rw [h1]; rfl, ?_, ?_⟩
        · simp only [probedDead, Bool.and_eq_true, Bool.not_eq_true']
          exact ⟨by simpa using ha, h2⟩
        · simpa [reapTrace] using h3

/-- Every `Acquire` on a pool whose flag is unset either serves the first
idle resource probed alive, after reaping the ones ahead of it, or reaps the
whole idle buffer and goes on with an empty one. -/
theorem Acquire_cases (E : Env) (p : Pool) (tr : Trace) (hopen : p.closed = false) :
    (∃ pre c rest, p.pool.buf = pre ++ c :: rest ∧ probedDead E pre tr = true ∧
        E.alive c (tr ++ reapTrace pre) = true ∧
        p.Acquire E tr =
          ⟨.ret (some c, none),
            { p with pool := { p.pool with buf := rest },
                     connCount := p.connCount - closedCleanly E pre tr },
            tr ++ reapTrace pre ++ [Event.alive c]⟩) ∨
    (probedDead E p.pool.buf tr = true ∧
        p.Acquire E tr =
          Pool.Acquire E
            { p with pool := { p.pool with buf := [] },
                     connCount := p.connCount - closedCleanly E p.pool.buf tr }
            (tr ++ reapTrace p.pool.buf)) := by
  rcases probe_split E p.pool.buf tr with h | ⟨pre, c, rest, h1, h2, h3⟩
  · right
    exact ⟨h, Acquire_after_reap E p tr p.pool.buf [] hopen (by simp) h⟩
  · left
    refine ⟨pre, c, rest, h1, h2, h3, ?_⟩
    rw [Acquire_after_reap E p tr pre (c :: rest) hopen h1 h2]
    exact Acquire_idle E
      { p with pool := { p.pool with buf := c :: rest },
               connCount := p.connCount - closedCleanly E pre tr }
      (tr ++ reapTrace pre) c rest hopen rfl h3

/-- An `Acquire` on an empty idle buffer makes at most one external call, a
`factory` call, and panics only on a closed channel. -/
theorem Acquire_empty (E : Env) (p : Pool) (tr : Trace)
    (hopen : p.closed = false) (hb : p.pool.buf = []) :
    (p.pool.closed = true ∧ p.Acquire E tr = ⟨.panic, p, tr⟩) ∨
    (p.pool.closed = false ∧ p.maxConn ≤ p.connCount ∧ p.Acquire E tr = ⟨.blocked, p, tr⟩) ∨
    (p.pool.closed = false ∧ p.connCount < p.maxConn ∧
      ∃ c, E.factory tr = .ok c ∧
        p.Acquire E tr =
          ⟨.ret (some c, none), { p with connCount := p.connCount + 1 },
            tr ++ [Event.factory]⟩) ∨
    (p.pool.closed = false ∧ p.connCount < p.maxConn ∧
      ∃ e, E.factory tr = .error e ∧
        p.Acquire E tr = ⟨.ret (none, some e), p, tr ++ [Event.factory]⟩) := by
  cases hch : p.pool.closed with
  | true =>
    left
    exact ⟨rfl, by simp [Pool.Acquire, hopen, hb, Pool.tryResource, hch]⟩
  | false =>
    right
    by_cases hge : p.maxConn ≤ p.connCount
    · left; exact ⟨rfl, hge, Acquire_blocked E p tr hopen hch hb hge⟩
    · right
      have hlt : p.connCount < p.maxConn := by omega
      cases hf : E.factory tr with
      | ok c => left; exact ⟨rfl, hlt, c, rfl, Acquire_build E p tr c hopen hch hb hlt hf⟩
      | error e =>
        right; exact ⟨rfl, hlt, e, rfl, Acquire_build_error E p tr e hopen hch hb hlt hf⟩

/-- The trace after an `Acquire` extends the trace before it. -/
theorem Acquire_trace_extends (E : Env) (p : Pool) (tr : Trace) :
    ∃ suf, (p.Acquire E tr).trace = tr ++ suf := by
  cases hopen : p.closed with
  | true => exact ⟨[], by simp [Pool.Acquire, hopen]⟩
  | false =>
    rcases Acquire_cases E p tr hopen with ⟨pre, c, rest, _, _, _, h⟩ | ⟨_, h⟩
    · exact ⟨reapTrace pre ++ [Event.alive c], by rw [h]; simp⟩
    · rw [h]
      rcases Acquire_empty E
          { p with pool := { p.pool with buf := [] },
                   connCount := p.connCount - closedCleanly E p.pool.buf tr }
          (tr ++ reapTrace p.pool.buf) hopen rfl with
        ⟨_, h1⟩ | ⟨_, _, h1⟩ | ⟨_, _, c, _, h1⟩ | ⟨_, _, e, _, h1⟩
      · exact ⟨reapTrace p.pool.buf, by rw [h1]⟩
      · exact ⟨reapTrace p.pool.buf, by rw [h1]⟩
      · exact ⟨reapTrace p.pool.buf ++ [Event.factory], by rw [h1]; simp⟩
      · exact ⟨reapTrace p.pool.buf ++ [Event.factory], by rw [h1]; simp⟩

/-! ## Release -/

/-- C14, `Release` does not probe or reap: on an open pool (flag unset, channel
open) whose idle buffer is not full, for every resource `c`, alive or dead,
`Release(c)` returns no error, appends `c` to the back of the idle buffer,
makes no external call (neither `c.Alive()` nor `c.Close()`), and leaves
`connCount`, `maxConn` and `closed` as they were.  A dead `c` in the idle
buffer is dealt with by the later `Acquire` that pulls it: on a pool with the
flag unset whose idle buffer is `pre ++ c :: rest`, where the probes of `pre`
and then of `c` answer `false`, `Acquire` probes `c`, closes it, and goes on
exactly as an `Acquire` on the pool whose idle buffer is `rest`: `c` is
skipped, not returned. -/
theorem Release_no_probe (E : Env) (p : Pool) (tr : Trace) (c : Conn)
    (hopen : p.closed = false) (hch : p.pool.closed = false)
    (hroom : p.pool.buf.length < p.pool.cap) :
    p.Release tr c =
        ⟨.ret none, { p with pool := { p.pool with buf := p.pool.buf ++ [c] } }, tr⟩ ∧
      (∀ (q : Pool) (t : Trace) (pre rest : List Conn),
        q.closed = false → q.pool.buf = pre ++ c :: rest →
        probedDead E (pre ++ [c]) t = true →
          q.Acquire E t =
              Pool.Acquire E
                { q with pool := { q.pool with buf := rest },
                         connCount := q.connCount - closedCleanly E (pre ++ [c]) t }
                (t ++ reapTrace pre ++ [Event.alive c, Event.close c]) ∧
            (∃ suf, (q.Acquire E t).trace =
              t ++ reapTrace pre ++ [Event.alive c, Event.close c] ++ suf)) := by
  refine ⟨by simp [Pool.Release, Chan.send, hopen, hch, hroom], ?_⟩
  intro q t pre rest hq hb hdead
  have hb2 : q.pool.buf = (pre ++ [c]) ++ rest := by rw [hb]; simp
  have heq := Acquire_after_reap E q t (pre ++ [c]) rest hq hb2 hdead
  rw [reapTrace_append, ← List.append_assoc] at heq
  refine ⟨heq, ?_⟩
  rw [heq]
  exact Acquire_trace_extends E _ _

theorem Release_no_probe_witness :
    (⟨⟨[], 2, false⟩, 0, 2, 1, false⟩ : Pool).closed = false ∧
      (⟨⟨[], 2, false⟩, 0, 2, 1, false⟩ : Pool).pool.closed = false ∧
      (⟨⟨[], 2, false⟩, 0, 2, 1, false⟩ : Pool).pool.buf.length
        < (⟨⟨[], 2, false⟩, 0, 2, 1, false⟩ : Pool).pool.cap ∧
      staleEnv.alive 1 [Event.factory] = false ∧
      Pool.Release ⟨⟨[], 2, false⟩, 0, 2, 1, false⟩ [Event.factory] 1 =
        ⟨.ret none, ⟨⟨[1], 2, false⟩, 0, 2, 1, false⟩, [Event.factory]⟩ ∧
      Pool.Acquire staleEnv ⟨⟨[1], 2, false⟩, 0, 2, 1, false⟩ [Event.factory] =
        Pool.Acquire staleEnv
          ⟨⟨[], 2, false⟩, 0, 2, 1 - closedCleanly staleEnv ([] ++ [1]) [Event.factory], false⟩
          ([Event.factory] ++ reapTrace [] ++ [Event.alive 1, Event.close 1]) :=
  have w := Release_no_probe staleEnv ⟨⟨[], 2, false⟩, 0, 2, 1, false⟩ [Event.factory] 1
    rfl rfl (by decide)
  ⟨rfl, rfl, by decide, by decide, w.1,
    (w.2 ⟨⟨[1], 2, false⟩, 0, 2, 1, false⟩ [Event.factory] [] [] rfl rfl (by decide)).1⟩

/-! ## Which errors reach the caller -/

theorem factoryCalls_reap (tr : Trace) (pre : List Conn) :
    factoryCalls (tr ++ reapTrace pre) = factoryCalls tr := by
  have := (reapTrace_counts pre).1
  unfold factoryCalls at *
  rw [List.count_append, this]
  rfl

/-- An `Acquire` makes no `factory` call, or its last external call is its
only `factory` call and decides what it returns. -/
theorem Acquire_factory (E : Env) (p : Pool) (tr : Trace) :
    (factoryCalls (p.Acquire E tr).trace = factoryCalls tr ∧
      ∀ po e, (p.Acquire E tr).out = .ret (po, some e) →
        p.closed = true ∧ po = none ∧ e = Err.ErrState) ∨
    (p.closed = false ∧
      ∃ t', (p.Acquire E tr).trace = t' ++ [Event.factory] ∧
        factoryCalls t' = factoryCalls tr ∧
        ((∃ c, E.factory t' = .ok c ∧ (p.Acquire E tr).out = .ret (some c, none)) ∨
         (∃ e, E.factory t' = .error e ∧ (p.Acquire E tr).out = .ret (none, some e)))) := by
  cases hopen : p.closed with
  | true =>
    left
    simp [Pool.Acquire, hopen]
  | false =>
    rcases Acquire_cases E p tr hopen with ⟨pre, c, rest, _, _, _, h⟩ | ⟨_, h⟩
    · left
      rw [h]
      refine ⟨?_, by simp⟩
      show factoryCalls (tr ++ reapTrace pre ++ [Event.alive c]) = factoryCalls tr
      have := factoryCalls_reap tr pre
      unfold factoryCalls at *
      rw [List.count_append, this]
      simp
    · rw [h]
      have hfc := factoryCalls_reap tr p.pool.buf
      rcases Acquire_empty E
          { p with pool := { p.pool with buf := [] },
                   connCount := p.connCount - closedCleanly E p.pool.buf tr }
          (tr ++ reapTrace p.pool.buf) hopen rfl with
        ⟨_, h1⟩ | ⟨_, _, h1⟩ | ⟨_, _, c, hc, h1⟩ | ⟨_, _, e, he, h1⟩
      · left; rw [h1]; exact ⟨hfc, by simp⟩
      · left; rw [h1]; exact ⟨hfc, by simp⟩
      · right; rw [h1]
        exact ⟨rfl, _, rfl, hfc, Or.inl ⟨c, hc, rfl⟩⟩
      · right; rw [h1]
        exact ⟨rfl, _, rfl, hfc, Or.inr ⟨e, he, rfl⟩⟩

/-- C15, as stated, fails: resource `1` is dead and its `Close()` fails with
`Err.other 9`.  On the pool of `NewPool(2, 2, factory)` (idle buffer `[1, 2]`)
`Acquire` invokes that `Close()` and returns resource `2` and no error; and
`Shutdown` on the same pool invokes it and returns no error. -/
theorem close_errors_discarded :
    NewPool staleEnv 2 2 [] =
        (.ret (some ⟨⟨[1, 2], 2, false⟩, 0, 2, 2, false⟩, none),
          [Event.factory, Event.factory]) ∧
      staleEnv.close 1 [Event.factory, Event.factory, Event.alive 1] = some (Err.other 9) ∧
      Pool.Acquire staleEnv ⟨⟨[1, 2], 2, false⟩, 0, 2, 2, false⟩ [Event.factory, Event.factory] =
        ⟨.ret (some 2, none), ⟨⟨[], 2, false⟩, 0, 2, 2, false⟩,
          [Event.factory, Event.factory, Event.alive 1, Event.close 1, Event.alive 2]⟩ ∧
      staleEnv.close 1 [Event.factory, Event.factory] = some (Err.other 9) ∧
      Pool.Shutdown ⟨⟨[1, 2], 2, false⟩, 0, 2, 2, false⟩ [Event.factory, Event.factory] =
        ⟨.ret none, ⟨⟨[], 2, true⟩, 0, 2, 0, true⟩,
          [Event.factory, Event.factory, Event.close 1, Event.close 2]⟩ := by
  refine ⟨by decide, by decide, rfl, by decide, rfl⟩

/-- C15, amended (error propagation): a `factory` failure during `Acquire`
is returned by `Acquire` verbatim (`Acquire` makes at most one `factory` call,
as its last external call), and a failure of the resource's `Close()` during
`Close` is returned by `Close` verbatim; `Release` makes no external call and
`Shutdown` no `factory` call.  The failures of a resource's `Close()` while
`Acquire` reaps a dead resource and while `Shutdown` drains the idle buffer
are not returned: `Acquire` returns an error only when the pool is closed
(`ErrState`) or its `factory` call fails, and `Shutdown` never returns an
error. -/
theorem errors_returned (E : Env) (p : Pool) (tr : Trace) (c : Conn) :
    factoryCalls (p.Acquire E tr).trace ≤ factoryCalls tr + 1 ∧
      (factoryCalls (p.Acquire E tr).trace = factoryCalls tr + 1 →
        ∃ t', (p.Acquire E tr).trace = t' ++ [Event.factory] ∧
          ∀ e, E.factory t' = .error e → (p.Acquire E tr).out = .ret (none, some e)) ∧
      (∀ po e, (p.Acquire E tr).out = .ret (po, some e) →
        po = none ∧
        ((p.closed = true ∧ e = Err.ErrState) ∨
          ∃ t', (p.Acquire E tr).trace = t' ++ [Event.factory] ∧ E.factory t' = .error e)) ∧
      (∀ e, E.close c tr = some e → (p.Close E tr c).out = .ret (some e)) ∧
      (p.Release tr c).trace = tr ∧
      factoryCalls (p.Shutdown tr).trace = factoryCalls tr ∧
      (∀ e, (p.Shutdown tr).out ≠ .ret (some e)) := by
  refine ⟨?_, ?_, ?_, ?_, (Release_frame p tr c).2.2.2.2.2.2.2.1, ?_, ?_⟩
  · rcases Acquire_factory E p tr with ⟨h, _⟩ | ⟨_, t', h1, h2, _⟩
    · omega
    · rw [h1]; unfold factoryCalls at *; rw [List.count_append, h2]; simp
  · intro hplus
    rcases Acquire_factory E p tr with ⟨h, _⟩ | ⟨_, t', h1, _, h3⟩
    · omega
    · refine ⟨t', h1, fun e he => ?_⟩
      rcases h3 with ⟨c1, hc, _⟩ | ⟨e1, he1, ho⟩
      · rw [hc] at he; cases he
      · rw [he1] at he; cases he; exact ho
  · intro po e ho
    rcases Acquire_factory E p tr with ⟨_, h⟩ | ⟨_, t', h1, _, h3⟩
    · obtain ⟨a, b, d⟩ := h po e ho
      exact ⟨b, Or.inl ⟨a, d⟩⟩
    · rcases h3 with ⟨c1, _, ho1⟩ | ⟨e1, he1, ho1⟩
      · rw [ho1] at ho; simp at ho
      · rw [ho1] at ho
        simp only [Outcome.ret.injEq, Prod.mk.injEq, Option.some.injEq] at ho
        exact ⟨ho.1.symm, Or.inr ⟨t', h1, by rw [he1, ho.2]⟩⟩
  · intro e he
    simp [Pool.Close, he]
  · unfold Pool.Shutdown
    split
    · rfl
    · split
      · rfl
      · show factoryCalls (Pool.drain _ _ _).2 = _
        rw [(drain_spec _ _ _).2.2.2.2.2.2.2]
        simp only [factoryCalls, List.count_append, add_right_eq_self]
        exact List.count_eq_zero_of_not_mem (by simp)
  · intro e
    unfold Pool.Shutdown
    split
    · simp
    · split <;> simp

/-! ## No panic, no blocked release -/

theorem Acquire_no_panic (E : Env) (p : Pool) (tr : Trace) (h : p.pool.closed = p.closed) :
    (p.Acquire E tr).out ≠ .panic := by
  cases hopen : p.closed with
  | true => simp [Pool.Acquire, hopen]
  | false =>
    rcases Acquire_cases E p tr hopen with ⟨pre, c, rest, _, _, _, h1⟩ | ⟨_, h1⟩
    · rw [h1]; simp
    · rw [h1]
      rcases Acquire_empty E
          { p with pool := { p.pool with buf := [] },
                   connCount := p.connCount - closedCleanly E p.pool.buf tr }
          (tr ++ reapTrace p.pool.buf) hopen rfl with
        ⟨h2, _⟩ | ⟨_, _, h2⟩ | ⟨_, _, c, _, h2⟩ | ⟨_, _, e, _, h2⟩
      · rw [hopen] at h
        simp only at h2
        rw [h] at h2
        cases h2
      · rw [h2]; simp
      · rw [h2]; simp
      · rw [h2]; simp

theorem Release_no_panic (p : Pool) (tr : Trace) (c : Conn) (h : p.pool.closed = p.closed) :
    (p.Release tr c).out ≠ .panic := by
  unfold Pool.Release Chan.send
  cases hopen : p.closed with
  | true => simp
  | false =>
    rw [hopen] at h
    by_cases hroom : p.pool.buf.length < p.pool.cap
    · simp [h, hroom]
    · simp [h, hroom]

theorem Shutdown_no_panic (p : Pool) (tr : Trace) (h : p.pool.closed = p.closed) :
    (p.Shutdown tr).out ≠ .panic := by
  unfold Pool.Shutdown
  cases hopen : p.closed with
  | true => simp
  | false =>
    rw [hopen] at h
    simp [h]

/-- `NewPool` never blocks, and it panics exactly when the parameters pass
the check and the channel is beyond what the runtime can allocate. -/
theorem NewPool_panic_iff (E : Env) (minConn maxConn : Int) (tr : Trace) :
    (NewPool E minConn maxConn tr).1 ≠ .blocked ∧
      ((NewPool E minConn maxConn tr).1 = .panic ↔
        (¬ maxConn < minConn ∧ (E.chanLimit : Int) < effectiveMax maxConn)) := by
  rcases NewPool_cases E minConn maxConn tr with ⟨hlt, h1⟩ | ⟨hlt, hbig, h1⟩ | ⟨hlt, hfit, h1⟩
  · rw [h1]
    exact ⟨by simp, by simp [hlt]⟩
  · rw [h1]
    exact ⟨by simp, by simp [hlt, hbig]⟩
  · rw [h1]
    refine ⟨by simp, ?_⟩
    constructor
    · intro h; simp at h
    · intro h; omega

/-- C17, `Release` never blocks under correct usage: in every state reached
from a successful `NewPool` by a finite sequence of steps in which `Release`
and `Close` are only passed a resource a caller holds at that moment (handed
out by `Acquire`; a `Release` or `Close` that returns no error ends the
holding), the number of resources held plus the length of the idle buffer is
at most `connCount`, which is at most `maxConn`; so for a held resource the
idle buffer is never at capacity: `Release` of it does not block, and on an
open pool it returns no error. -/
theorem release_never_blocks (E : Env) (minConn maxConn : Int) (tr tr1 : Trace) (p : Pool)
    (h : NewPool E minConn maxConn tr = (.ret (some p, none), tr1)) (ops : List Op)
    (hd : Sys.Disciplined E ⟨p, tr1, []⟩ ops) :
    ((Sys.run E ⟨p, tr1, []⟩ ops).held.length : Int)
        + (Sys.run E ⟨p, tr1, []⟩ ops).pool.pool.buf.length
        ≤ (Sys.run E ⟨p, tr1, []⟩ ops).pool.connCount ∧
      (Sys.run E ⟨p, tr1, []⟩ ops).pool.connCount ≤ (Sys.run E ⟨p, tr1, []⟩ ops).pool.maxConn ∧
      (∀ c ∈ (Sys.run E ⟨p, tr1, []⟩ ops).held,
        (Sys.run E ⟨p, tr1, []⟩ ops).pool.pool.buf.length
            < (Sys.run E ⟨p, tr1, []⟩ ops).pool.pool.cap ∧
          ((Sys.run E ⟨p, tr1, []⟩ ops).pool.Release
            (Sys.run E ⟨p, tr1, []⟩ ops).trace c).out ≠ .blocked ∧
          ((Sys.run E ⟨p, tr1, []⟩ ops).pool.closed = false →
            ((Sys.run E ⟨p, tr1, []⟩ ops).pool.Release
              (Sys.run E ⟨p, tr1, []⟩ ops).trace c).out = .ret none)) := by
  obtain ⟨hwf0, hM, _, hc, _⟩ := NewPool_spec E minConn maxConn tr tr1 p h
  have hcount := run_counted E ops ⟨p, tr1, []⟩ hd (by simp [hc])
  have hle0 : p.connCount ≤ p.maxConn := by
    have := hwf0.2.2.1
    rw [hwf0.2.1] at this
    rw [hc]
    have hpos := hwf0.1
    omega
  have hceil := run_ceiling E ops ⟨p, tr1, []⟩ p.maxConn ⟨rfl, hle0⟩
  obtain ⟨w1, w2, w3, w4⟩ := run_WF E ops ⟨p, tr1, []⟩ hwf0
  generalize Sys.run E ⟨p, tr1, []⟩ ops = s at hcount hceil w1 w2 w3 w4 ⊢
  refine ⟨hcount, by rw [hceil.1]; exact hceil.2, fun c hmem => ?_⟩
  have hpos : 0 < s.held.length := List.length_pos_of_mem hmem
  have hroom : s.pool.pool.buf.length < s.pool.pool.cap := by
    rw [w2]
    have := hceil.2
    rw [← hceil.1] at this
    omega
  refine ⟨hroom, ?_, fun hopen => ?_⟩
  · unfold Pool.Release Chan.send
    cases hopen : s.pool.closed with
    | true => simp
    | false =>
      rw [hopen] at w4
      simp [w4, hroom]
  · rw [hopen] at w4
    simp [Pool.Release, Chan.send, hopen, w4, hroom]

theorem release_never_blocks_witness :
    NewPool healthyEnv 2 3 [] =
        (.ret (some ⟨⟨[100, 101], 3, false⟩, 0, 3, 2, false⟩, none),
          [Event.factory, Event.factory]) ∧
      Sys.Disciplined healthyEnv ⟨⟨⟨[100, 101], 3, false⟩, 0, 3, 2, false⟩,
          [Event.factory, Event.factory], []⟩
        [.acquire, .acquire, .acquire, .release 101] ∧
      ((Sys.run healthyEnv ⟨⟨⟨[100, 101], 3, false⟩, 0, 3, 2, false⟩,
          [Event.factory, Event.factory], []⟩
        [.acquire, .acquire, .acquire, .release 101]).held.length : Int)
        + (Sys.run healthyEnv ⟨⟨⟨[100, 101], 3, false⟩, 0, 3, 2, false⟩,
          [Event.factory, Event.factory], []⟩
        [.acquire, .acquire, .acquire, .release 101]).pool.pool.buf.length
        ≤ (Sys.run healthyEnv ⟨⟨⟨[100, 101], 3, false⟩, 0, 3, 2, false⟩,
          [Event.factory, Event.factory], []⟩
        [.acquire, .acquire, .acquire, .release 101]).pool.connCount :=
  have hd : Sys.Disciplined healthyEnv ⟨⟨⟨[100, 101], 3, false⟩, 0, 3, 2, false⟩,
      [Event.factory, Event.factory], []⟩ [.acquire, .acquire, .acquire, .release 101] := by
    simp [Sys.Disciplined, Sys.step, Pool.Acquire, Pool.tryResource, Pool.Close,
      Pool.Release, Chan.send, healthyEnv, factoryCalls]
  ⟨by decide, hd,
    (release_never_blocks healthyEnv 2 3 [] _ _ (by decide) _ hd).1⟩

/-! ## The retry loop is bounded -/

theorem aliveProbes_append (a b : Trace) : aliveProbes (a ++ b) = aliveProbes a + aliveProbes b := by
  simp [aliveProbes, List.countP_append]

theorem aliveProbes_reap (pre : List Conn) : aliveProbes (reapTrace pre) = pre.length := by
  induction pre with
  | nil => rfl
  | cons d ds ih =>
    have : aliveProbes (reapTrace (d :: ds)) = aliveProbes (reapTrace ds) + 1 := by
      simp [aliveProbes, reapTrace, List.countP_cons]
    rw [this, ih, List.length_cons]

/-- C18, the reap-and-retry loop of `Acquire` is bounded: on an open pool
(flag unset, channel open) with `n` idle resources, `Acquire` (a total
function of the pool, the history and the environment) probes `Alive()` at
most `n` times, and each resource at most as often as it occurs in the idle
buffer; and it ends in exactly one of four ways: it returns an idle resource
just probed alive, it returns the resource its `factory` call built, it
returns the error of its `factory` call, or it blocks on the empty idle buffer
with `connCount ≥ maxConn`.  The last happens in particular when every idle
resource is probed dead, none of their `Close()` calls succeeds and
`connCount ≥ maxConn` at the call. -/
theorem Acquire_bounded (E : Env) (p : Pool) (tr : Trace)
    (hopen : p.closed = false) (hch : p.pool.closed = false) :
    aliveProbes (p.Acquire E tr).trace ≤ aliveProbes tr + p.pool.buf.length ∧
      (∀ c, (p.Acquire E tr).trace.count (Event.alive c)
        ≤ tr.count (Event.alive c) + p.pool.buf.count c) ∧
      (∃ k, endsAs E p (p.Acquire E tr) k ∧ ∀ k', endsAs E p (p.Acquire E tr) k' → k' = k) ∧
      (probedDead E p.pool.buf tr = true → closedCleanly E p.pool.buf tr = 0 →
        p.maxConn ≤ p.connCount → endsAs E p (p.Acquire E tr) .blocked) := by
  by_cases hdead : probedDead E p.pool.buf tr = true
  · -- the whole idle buffer is reaped
    have h := Acquire_after_reap E p tr p.pool.buf [] hopen (by simp) hdead
    have hprobe : aliveProbes (tr ++ reapTrace p.pool.buf) = aliveProbes tr + p.pool.buf.length := by
      rw [aliveProbes_append, aliveProbes_reap]
    have hcnt : ∀ c, (tr ++ reapTrace p.pool.buf).count (Event.alive c)
        = tr.count (Event.alive c) + p.pool.buf.count c := by
      intro c
      rw [List.count_append, ((reapTrace_counts p.pool.buf).2 c).2]
    rcases Acquire_empty E
        { p with pool := { p.pool with buf := [] },
                 connCount := p.connCount - closedCleanly E p.pool.buf tr }
        (tr ++ reapTrace p.pool.buf) hopen rfl with
      ⟨h2, _⟩ | ⟨_, hge, h2⟩ | ⟨_, hlt, c, hc, h2⟩ | ⟨_, hlt, e, he, h2⟩
    · simp only at h2
      rw [hch] at h2
      cases h2
    · rw [h2] at h
      rw [h]
      refine ⟨by simp only; omega, fun c => by simp only; rw [hcnt c], ⟨.blocked, ?_, ?_⟩,
        fun _ _ _ => ?_⟩
      · exact ⟨rfl, rfl, hge⟩
      · intro k' hk'
        cases k' with
        | servedIdle => obtain ⟨_, _, _, ho, _⟩ := hk'; simp at ho
        | built => obtain ⟨_, _, ho, _⟩ := hk'; simp at ho
        | factoryError => obtain ⟨_, _, ho, _⟩ := hk'; simp at ho
        | blocked => rfl
      · exact ⟨rfl, rfl, hge⟩
    · rw [h2] at h
      rw [h]
      refine ⟨?_, fun x => ?_, ⟨.built, ?_, ?_⟩, fun _ h0 hfull => ?_⟩
      · simp only
        rw [aliveProbes_append, hprobe]
        simp [aliveProbes]
      · simp only
        rw [List.count_append, hcnt x]
        simp
      · exact ⟨c, _, rfl, rfl, hc⟩
      · intro k' hk'
        cases k' with
        | servedIdle =>
          obtain ⟨c1, t1, _, _, ht, _⟩ := hk'
          have := (List.append_inj' ht rfl).2
          simp at this
        | built => rfl
        | factoryError => obtain ⟨_, _, ho, _⟩ := hk'; simp at ho
        | blocked => obtain ⟨ho, _⟩ := hk'; simp at ho
      · simp only [h0, Nat.cast_zero, sub_zero] at hlt
        omega
    · rw [h2] at h
      rw [h]
      refine ⟨?_, fun x => ?_, ⟨.factoryError, ?_, ?_⟩, fun _ h0 hfull => ?_⟩
      · simp only
        rw [aliveProbes_append, hprobe]
        simp [aliveProbes]
      · simp only
        rw [List.count_append, hcnt x]
        simp
      · exact ⟨e, _, rfl, rfl, he⟩
      · intro k' hk'
        cases k' with
        | servedIdle => obtain ⟨_, _, _, ho, _⟩ := hk'; simp at ho
        | built => obtain ⟨_, _, ho, _⟩ := hk'; simp at ho
        | factoryError => rfl
        | blocked => obtain ⟨ho, _⟩ := hk'; simp at ho
      · simp only [h0, Nat.cast_zero, sub_zero] at hlt
        omega
  · -- a resource is probed alive and served
    rcases Acquire_cases E p tr hopen with ⟨pre, c, rest, hb, _, ha, h⟩ | ⟨hd2, _⟩
    · rw [h]
      refine ⟨?_, fun x => ?_, ⟨.servedIdle, ?_, ?_⟩, fun hd2 => absurd hd2 hdead⟩
      · simp only
        rw [aliveProbes_append, aliveProbes_append, aliveProbes_reap, hb]
        simp only [List.length_append, List.length_cons]
        have : aliveProbes [Event.alive c] = 1 := rfl
        omega
      · simp only
        rw [List.count_append, List.count_append, ((reapTrace_counts pre).2 x).2, hb,
          List.count_append]
        have h1 : [Event.alive c].count (Event.alive x) = [c].count x := by
          by_cases hx : c = x
          · subst hx; simp
          · have hx2 : Event.alive c ≠ Event.alive x := fun hh => hx (by cases hh; rfl)
            rw [List.count_singleton, List.count_singleton]
            simp [hx, hx2]
        have h2 : (c :: rest).count x = [c].count x + rest.count x := by
          rw [← List.count_append]; rfl
        rw [h1, h2]
        omega
      · exact ⟨c, tr ++ reapTrace pre, by rw [hb]; simp, rfl, rfl, ha⟩
      · intro k' hk'
        cases k' with
        | servedIdle => rfl
        | built =>
          obtain ⟨c1, t1, _, ht, _⟩ := hk'
          have := (List.append_inj' ht rfl).2
          simp at this
        | factoryError => obtain ⟨_, _, ho, _⟩ := hk'; simp at ho
        | blocked => obtain ⟨ho, _⟩ := hk'; simp at ho
    · exact absurd hd2 hdead

theorem Acquire_bounded_witness :
    (⟨⟨[1, 2], 2, false⟩, 0, 2, 2, false⟩ : Pool).closed = false ∧
      (⟨⟨[1, 2], 2, false⟩, 0, 2, 2, false⟩ : Pool).pool.closed = false ∧
      probedDead deadEnv (⟨⟨[1, 2], 2, false⟩, 0, 2, 2, false⟩ : Pool).pool.buf [] = true ∧
      closedCleanly deadEnv (⟨⟨[1, 2], 2, false⟩, 0, 2, 2, false⟩ : Pool).pool.buf [] = 0 ∧
      aliveProbes (Pool.Acquire deadEnv ⟨⟨[1, 2], 2, false⟩, 0, 2, 2, false⟩ []).trace
        ≤ aliveProbes [] + (⟨⟨[1, 2], 2, false⟩, 0, 2, 2, false⟩ : Pool).pool.buf.length ∧
      endsAs deadEnv ⟨⟨[1, 2], 2, false⟩, 0, 2, 2, false⟩
        (Pool.Acquire deadEnv ⟨⟨[1, 2], 2, false⟩, 0, 2, 2, false⟩ []) .blocked ∧
      (Pool.Acquire deadEnv ⟨⟨[1, 2], 2, false⟩, 0, 2, 2, false⟩ []).out = .blocked :=
  have w := Acquire_bounded deadEnv ⟨⟨[1, 2], 2, false⟩, 0, 2, 2, false⟩ [] rfl rfl
  ⟨rfl, rfl, by decide, by decide, w.1, w.2.2.2 (by decide) (by decide) (by decide),
    (w.2.2.2 (by decide) (by decide) (by decide)).1⟩

/-! ## A waiting `Acquire` and `Shutdown` -/

/-- On a pool whose flag is unset, `Acquire` is its body from `TRY_RESOURCE`
on. -/
theorem Acquire_eq_fromTryResource (E : Env) (p : Pool) (tr : Trace)
    (hopen : p.closed = false) : p.Acquire E tr = p.fromTryResource E tr := by
  simp [Pool.Acquire, Pool.fromTryResource, hopen]

/-- A waiting `Acquire` whose channel has been closed and is empty panics
when it wakes. -/
theorem AcquireWake_closed_empty (E : Env) (p : Pool) (tr : Trace)
    (hb : p.pool.buf = []) (hch : p.pool.closed = true) :
    p.AcquireWake E tr = ⟨.panic, p, tr⟩ := by
  simp [Pool.AcquireWake, hb, hch]

/-- A waiting `Acquire` that wakes on a queued resource does what the body
from `TRY_RESOURCE` does on that channel. -/
theorem AcquireWake_eq_of_cons (E : Env) (p : Pool) (tr : Trace) (c : Conn) (rest : List Conn)
    (hb : p.pool.buf = c :: rest) : p.AcquireWake E tr = p.fromTryResource E tr := by
  unfold Pool.AcquireWake Pool.fromTryResource
  rw [hb]
  simp only [Pool.tryResource]
  by_cases ha : E.alive c tr = true
  · simp [ha]
  · simp only [ha, Bool.false_eq_true, if_false]
    rw [(Close_pool_chan E _ _ c).1]

/-- C16, as stated, fails.  (1) `NewPool(0, 2^63 - 1, factory)` panics in
`make(chan Conn, maxConn)`: the capacity is beyond what the runtime allocates
(`2^44 - 6` on a 64-bit build).  (2) The calls `NewPool(0, 1, factory)`,
`Acquire` (builds resource `100`), `Acquire` (waits at the blocking receive:
the pool is at capacity), `Shutdown`, in this order: `Shutdown` closes the
channel, the waiting `Acquire` receives nil from it and panics in
`conn.Alive()`. -/
theorem panics_in_make_and_on_wake :
    NewPool healthyEnv 0 9223372036854775807 [] = (.panic, []) ∧
      NewPool healthyEnv 0 1 [] = (.ret (some ⟨⟨[], 1, false⟩, 0, 1, 0, false⟩, none), []) ∧
      Pool.Acquire healthyEnv ⟨⟨[], 1, false⟩, 0, 1, 0, false⟩ [] =
        ⟨.ret (some 100, none), ⟨⟨[], 1, false⟩, 0, 1, 1, false⟩, [Event.factory]⟩ ∧
      Pool.Acquire healthyEnv ⟨⟨[], 1, false⟩, 0, 1, 1, false⟩ [Event.factory] =
        ⟨.blocked, ⟨⟨[], 1, false⟩, 0, 1, 1, false⟩, [Event.factory]⟩ ∧
      Pool.Shutdown ⟨⟨[], 1, false⟩, 0, 1, 1, false⟩ [Event.factory] =
        ⟨.ret none, ⟨⟨[], 1, true⟩, 0, 1, 1, true⟩, [Event.factory]⟩ ∧
      Pool.AcquireWake healthyEnv ⟨⟨[], 1, true⟩, 0, 1, 1, true⟩ [Event.factory] =
        ⟨.panic, ⟨⟨[], 1, true⟩, 0, 1, 1, true⟩, [Event.factory]⟩ := by
  refine ⟨?_, by decide, rfl, rfl, rfl, rfl⟩
  rcases NewPool_cases healthyEnv 0 9223372036854775807 [] with ⟨h, _⟩ | ⟨_, _, h⟩ | ⟨_, h, _⟩
  · exact absurd h (by decide)
  · exact h
  · exact absurd h (by decide)

/-- A waiting `Acquire` that wakes on a pool whose flag is unset and whose
channel is open does not panic. -/
theorem AcquireWake_no_panic (E : Env) (p : Pool) (tr : Trace)
    (hopen : p.closed = false) (hch : p.pool.closed = false) :
    (p.AcquireWake E tr).out ≠ .panic := by
  cases hb : p.pool.buf with
  | nil => simp [Pool.AcquireWake, hb, hch]
  | cons c rest =>
    rw [AcquireWake_eq_of_cons E p tr c rest hb, ← Acquire_eq_fromTryResource E p tr hopen]
    exact Acquire_no_panic E p tr (by rw [hch, hopen])

/-- C16, amended (no panic paths on a pool that is not shut down under a
waiting `Acquire`): `NewPool` never blocks and panics exactly when the
parameters pass the check and the effective `maxConn` is beyond the capacity
the runtime can allocate for the channel.  In every state reached from a
successful `NewPool` by a finite sequence of `Acquire`, `Release`, `Close`
and `Shutdown` calls applied one at a time, with non-nil resources and a
factory that returns an error or a non-nil resource, the idle channel is
closed if and only if the `closed` flag is set; so whichever call comes next,
it returns or it waits without a panic: `Release` does not send on a closed
channel, `Shutdown` does not close the channel twice, `Acquire` does not
receive nil from a closed channel; and an `Acquire` left waiting does not
panic when it wakes while the pool is open. -/
theorem no_panic_paths (E : Env) (minConn maxConn : Int) (tr tr1 : Trace) (p : Pool)
    (h : NewPool E minConn maxConn tr = (.ret (some p, none), tr1)) (ops : List Op) :
    (∀ (mn mx : Int) (t : Trace), (NewPool E mn mx t).1 ≠ .blocked ∧
        ((NewPool E mn mx t).1 = .panic ↔
          (¬ mx < mn ∧ (E.chanLimit : Int) < effectiveMax mx))) ∧
      ((Sys.run E ⟨p, tr1, []⟩ ops).pool.pool.closed = true ↔
        (Sys.run E ⟨p, tr1, []⟩ ops).pool.closed = true) ∧
      ((Sys.run E ⟨p, tr1, []⟩ ops).pool.Acquire E (Sys.run E ⟨p, tr1, []⟩ ops).trace).out
        ≠ .panic ∧
      (∀ c, ((Sys.run E ⟨p, tr1, []⟩ ops).pool.Release
        (Sys.run E ⟨p, tr1, []⟩ ops).trace c).out ≠ .panic) ∧
      (∀ c, ((Sys.run E ⟨p, tr1, []⟩ ops).pool.Close E
        (Sys.run E ⟨p, tr1, []⟩ ops).trace c).out ≠ .panic) ∧
      ((Sys.run E ⟨p, tr1, []⟩ ops).pool.Shutdown (Sys.run E ⟨p, tr1, []⟩ ops).trace).out
        ≠ .panic ∧
      ((Sys.run E ⟨p, tr1, []⟩ ops).pool.closed = false →
        ((Sys.run E ⟨p, tr1, []⟩ ops).pool.AcquireWake E
          (Sys.run E ⟨p, tr1, []⟩ ops).trace).out ≠ .panic) := by
  have hwf := run_WF E ops ⟨p, tr1, []⟩ (NewPool_spec E minConn maxConn tr tr1 p h).1
  have hcl := hwf.2.2.2
  refine ⟨fun mn mx t => NewPool_panic_iff E mn mx t, by rw [hcl],
    Acquire_no_panic E _ _ hcl, fun c => Release_no_panic _ _ c hcl, fun c => ?_,
    Shutdown_no_panic _ _ hcl, fun hopen => AcquireWake_no_panic E _ _ hopen (by rw [hcl, hopen])⟩
  unfold Pool.Close
  cases E.close c (Sys.run E ⟨p, tr1, []⟩ ops).trace <;> simp

theorem no_panic_paths_witness :
    NewPool staleEnv 2 2 [] =
        (.ret (some ⟨⟨[1, 2], 2, false⟩, 0, 2, 2, false⟩, none),
          [Event.factory, Event.factory]) ∧
      ((Sys.run staleEnv ⟨⟨⟨[1, 2], 2, false⟩, 0, 2, 2, false⟩, [Event.factory, Event.factory],
          []⟩ [.acquire, .release 2, .shutdown, .release 2]).pool.Shutdown
        (Sys.run staleEnv ⟨⟨⟨[1, 2], 2, false⟩, 0, 2, 2, false⟩, [Event.factory, Event.factory],
          []⟩ [.acquire, .release 2, .shutdown, .release 2]).trace).out ≠ .panic ∧
      ((Sys.run staleEnv ⟨⟨⟨[1, 2], 2, false⟩, 0, 2, 2, false⟩, [Event.factory, Event.factory],
          []⟩ [.acquire, .acquire]).pool.AcquireWake staleEnv
        (Sys.run staleEnv ⟨⟨⟨[1, 2], 2, false⟩, 0, 2, 2, false⟩, [Event.factory, Event.factory],
          []⟩ [.acquire, .acquire]).trace).out ≠ .panic :=
  ⟨by decide,
    (no_panic_paths staleEnv 2 2 [] _ _ (by decide)
      [.acquire, .release 2, .shutdown, .release 2]).2.2.2.2.2.1,
    (no_panic_paths staleEnv 2 2 [] _ _ (by decide) [.acquire, .acquire]).2.2.2.2.2.2
      (by decide)⟩

/-! ## The reap, on every open pool -/

/-- Every idle buffer splits into the resources the loop pulls and probes
dead and what is behind them, which is empty or starts with a resource probed
alive. -/
theorem reap_split (E : Env) (buf : List Conn) (tr : Trace) :
    ∃ pre rest, buf = pre ++ rest ∧ probedDead E pre tr = true ∧
      ∀ c, rest.head? = some c → E.alive c (tr ++ reapTrace pre) = true := by
  rcases probe_split E buf tr with h | ⟨pre, c, rest, h1, h2, h3⟩
  · exact ⟨buf, [], by simp, h, by simp⟩
  · refine ⟨pre, c :: rest, h1, h2, fun x hx => ?_⟩
    simp only [List.head?_cons, Option.some.injEq] at hx
    rw [← hx]; exact h3

/-- A waiting `Acquire` that wakes on a queued resource does what the body
from `TRY_RESOURCE` does on that channel: the reap after the blocking receive
is the reap of the loop. -/
theorem AcquireWake_eq (E : Env) (p : Pool) (tr : Trace) (hne : p.pool.buf ≠ []) :
    p.AcquireWake E tr = p.fromTryResource E tr := by
  cases hb : p.pool.buf with
  | nil => exact absurd hb hne
  | cons c rest => exact AcquireWake_eq_of_cons E p tr c rest hb

theorem closeCalls_reap (tr : Trace) (pre : List Conn) (tail : Trace)
    (htail : tail = [] ∨ tail = [Event.factory] ∨ ∃ c, tail = [Event.alive c]) (d : Conn) :
    closeCalls d (tr ++ reapTrace pre ++ tail) = closeCalls d tr + pre.count d := by
  have h1 := ((reapTrace_counts pre).2 d).1
  have h2 : closeCalls d tail = 0 := by
    rcases htail with h | h | ⟨c, h⟩ <;> subst h <;> simp [closeCalls]
  unfold closeCalls at *
  rw [List.count_append, List.count_append, h1, h2]
  rfl

/-- C5, amended (dead-resource reap): on every open pool, let `pre` be the
resources `Acquire` pulls from the idle buffer and probes dead, and `rest`
what is behind them in the buffer (empty, or starting with a resource probed
alive; every idle buffer splits this way).  `Acquire` invokes `Close()`
exactly once on each resource of `pre` (once per occurrence), right after its
probe, and on no other resource, and goes on to the next resource instead of
returning one of them: it serves the head of `rest`, or, the buffer
exhausted, checks capacity and builds, fails or waits.  `connCount` is
decremented by one for each dead resource whose `Close()` returned no error
and not for one whose `Close()` failed: with `k ≤ d` the number of the `d` dead
resources closed without error (`k = d` when every `Close()` succeeds),
`connCount` after the call is `connCount` before minus `k`, plus one when the
resource returned is newly built.  The reap after the blocking receive is the
same: a waiting `Acquire` that wakes on a non-empty buffer ends as this
`Acquire` does. -/
theorem Acquire_reaps_dead (E : Env) (p : Pool) (tr : Trace) (pre rest : List Conn)
    (hopen : p.closed = false) (hb : p.pool.buf = pre ++ rest)
    (hdead : probedDead E pre tr = true)
    (hnext : ∀ c, rest.head? = some c → E.alive c (tr ++ reapTrace pre) = true) :
    (∀ d, closeCalls d (p.Acquire E tr).trace = closeCalls d tr + pre.count d) ∧
      (∃ tail, (p.Acquire E tr).trace = tr ++ reapTrace pre ++ tail ∧
        (tail = [] ∨ tail = [Event.factory] ∨ ∃ c, rest.head? = some c ∧ tail = [Event.alive c])) ∧
      (p.Acquire E tr).pool.pool.buf = rest.tail ∧
      (∀ c, rest.head? = some c →
        (p.Acquire E tr).out = .ret (some c, none) ∧
        (p.Acquire E tr).pool.connCount = p.connCount - closedCleanly E pre tr) ∧
      (rest = [] →
        (∃ c, E.factory (tr ++ reapTrace pre) = .ok c ∧
            (p.Acquire E tr).out = .ret (some c, none) ∧
            (p.Acquire E tr).pool.connCount = p.connCount - closedCleanly E pre tr + 1) ∨
        ((∀ c, (p.Acquire E tr).out ≠ .ret (some c, none)) ∧
            (p.Acquire E tr).pool.connCount = p.connCount - closedCleanly E pre tr)) ∧
      closedCleanly E pre tr ≤ pre.length ∧
      ((∀ d ∈ pre, ∀ t, E.close d t = none) → closedCleanly E pre tr = pre.length) ∧
      (p.pool.buf ≠ [] → p.AcquireWake E tr = p.Acquire E tr) := by
  have hwake : p.pool.buf ≠ [] → p.AcquireWake E tr = p.Acquire E tr := fun hne => by
    rw [AcquireWake_eq E p tr hne, Acquire_eq_fromTryResource E p tr hopen]
  have hA := Acquire_after_reap E p tr pre rest hopen hb hdead
  have hnil : ∀ d, closeCalls d (tr ++ reapTrace pre) = closeCalls d tr + pre.count d := by
    intro d
    have := closeCalls_reap tr pre [] (Or.inl rfl) d
    simpa using this
  have hfac : ∀ d, closeCalls d (tr ++ reapTrace pre ++ [Event.factory])
      = closeCalls d tr + pre.count d :=
    fun d => closeCalls_reap tr pre [Event.factory] (Or.inr (Or.inl rfl)) d
  have hle := closedCleanly_le E pre tr
  have hall := closedCleanly_all E pre tr
  cases rest with
  | nil =>
    rcases Acquire_empty E
        { p with pool := { p.pool with buf := [] },
                 connCount := p.connCount - closedCleanly E pre tr }
        (tr ++ reapTrace pre) hopen rfl with
      ⟨_, h1⟩ | ⟨_, _, h1⟩ | ⟨_, _, c, hc, h1⟩ | ⟨_, _, e, he, h1⟩
    · have hfin := hA.trans h1
      rw [hfin]
      exact ⟨hnil, ⟨[], by simp, Or.inl rfl⟩, rfl, fun x hx => by simp at hx,
        fun _ => Or.inr ⟨by simp, rfl⟩, hle, hall, fun hne => (hwake hne).trans hfin⟩
    · have hfin := hA.trans h1
      rw [hfin]
      exact ⟨hnil, ⟨[], by simp, Or.inl rfl⟩, rfl, fun x hx => by simp at hx,
        fun _ => Or.inr ⟨by simp, rfl⟩, hle, hall, fun hne => (hwake hne).trans hfin⟩
    · have hfin := hA.trans h1
      rw [hfin]
      exact ⟨hfac, ⟨[Event.factory], rfl, Or.inr (Or.inl rfl)⟩, rfl,
        fun x hx => by simp at hx, fun _ => Or.inl ⟨c, hc, rfl, rfl⟩, hle, hall,
        fun hne => (hwake hne).trans hfin⟩
    · have hfin := hA.trans h1
      rw [hfin]
      exact ⟨hfac, ⟨[Event.factory], rfl, Or.inr (Or.inl rfl)⟩, rfl,
        fun x hx => by simp at hx, fun _ => Or.inr ⟨by simp, rfl⟩, hle, hall,
        fun hne => (hwake hne).trans hfin⟩
  | cons c rest1 =>
    have hfin := hA.trans (Acquire_idle E
      { p with pool := { p.pool with buf := c :: rest1 },
               connCount := p.connCount - closedCleanly E pre tr }
      (tr ++ reapTrace pre) c rest1 hopen rfl (hnext c rfl))
    rw [hfin]
    refine ⟨fun d => closeCalls_reap tr pre [Event.alive c] (Or.inr (Or.inr ⟨c, rfl⟩)) d,
      ⟨[Event.alive c], rfl, Or.inr (Or.inr ⟨c, rfl, rfl⟩)⟩, rfl, fun x hx => ?_,
      fun hcon => absurd hcon (List.cons_ne_nil c rest1), hle, hall,
      fun hne => (hwake hne).trans hfin⟩
    simp only [List.head?_cons, Option.some.injEq] at hx
    subst hx
    exact ⟨rfl, rfl⟩

theorem Acquire_reaps_dead_witness :
    (⟨⟨[1, 2, 3], 3, false⟩, 0, 3, 3, false⟩ : Pool).closed = false ∧
      (⟨⟨[1, 2, 3], 3, false⟩, 0, 3, 3, false⟩ : Pool).pool.buf = [1, 2] ++ [3] ∧
      probedDead mixedEnv [1, 2] [] = true ∧
      (∀ c, [3].head? = some c → mixedEnv.alive c ([] ++ reapTrace [1, 2]) = true) ∧
      closedCleanly mixedEnv [1, 2] [] = 1 ∧
      (∀ d, closeCalls d (Pool.Acquire mixedEnv ⟨⟨[1, 2, 3], 3, false⟩, 0, 3, 3, false⟩ []).trace
        = closeCalls d [] + [1, 2].count d) ∧
      (Pool.Acquire mixedEnv ⟨⟨[1, 2, 3], 3, false⟩, 0, 3, 3, false⟩ []).out
        = .ret (some 3, none) ∧
      (Pool.Acquire mixedEnv ⟨⟨[1, 2, 3], 3, false⟩, 0, 3, 3, false⟩ []).pool.connCount
        = 3 - closedCleanly mixedEnv [1, 2] [] ∧
      (⟨⟨[1, 2], 3, false⟩, 0, 3, 2, false⟩ : Pool).pool.buf = [1, 2] ++ [] ∧
      ((∃ c, mixedEnv.factory ([] ++ reapTrace [1, 2]) = .ok c ∧
          (Pool.Acquire mixedEnv ⟨⟨[1, 2], 3, false⟩, 0, 3, 2, false⟩ []).out
            = .ret (some c, none) ∧
          (Pool.Acquire mixedEnv ⟨⟨[1, 2], 3, false⟩, 0, 3, 2, false⟩ []).pool.connCount
            = 2 - closedCleanly mixedEnv [1, 2] [] + 1) ∨
        ((∀ c, (Pool.Acquire mixedEnv ⟨⟨[1, 2], 3, false⟩, 0, 3, 2, false⟩ []).out
            ≠ .ret (some c, none)) ∧
          (Pool.Acquire mixedEnv ⟨⟨[1, 2], 3, false⟩, 0, 3, 2, false⟩ []).pool.connCount
            = 2 - closedCleanly mixedEnv [1, 2] [])) ∧
      (∀ d, closeCalls d (Pool.Acquire mixedEnv ⟨⟨[1, 2], 3, false⟩, 0, 3, 2, false⟩ []).trace
        = closeCalls d [] + [1, 2].count d) ∧
      Pool.AcquireWake mixedEnv ⟨⟨[1, 2], 3, false⟩, 0, 3, 2, false⟩ []
        = Pool.Acquire mixedEnv ⟨⟨[1, 2], 3, false⟩, 0, 3, 2, false⟩ [] :=
  have hnext : ∀ c, [3].head? = some c → mixedEnv.alive c ([] ++ reapTrace [1, 2]) = true := by
    intro c hc
    simp only [List.head?_cons, Option.some.injEq] at hc
    subst hc
    decide
  have w := Acquire_reaps_dead mixedEnv ⟨⟨[1, 2, 3], 3, false⟩, 0, 3, 3, false⟩ []
    [1, 2] [3] rfl rfl (by decide) hnext
  have v := Acquire_reaps_dead mixedEnv ⟨⟨[1, 2], 3, false⟩, 0, 3, 2, false⟩ []
    [1, 2] [] rfl rfl (by decide) (fun c hc => by simp at hc)
  ⟨rfl, rfl, by decide, hnext, by decide, w.1, (w.2.2.2.1 3 rfl).1, (w.2.2.2.1 3 rfl).2,
    rfl, v.2.2.2.2.1 rfl, v.1, v.2.2.2.2.2.2.2 (by decide)⟩

end Gopool
